import Mathlib

/-!
# Verification of the centrixsystems/ci core loop

Shallow embedding, in Lean 4, of the parts of the `ci_server` crate that the
specification's claims are about:

* output truncation and title truncation at the byte level
  (`services/executor.rs` lines 191-215, `services/error_service.rs` lines 79-84),
* the error-text normalization pipeline (`services/error_service.rs`, `normalize`),
* the error catalog upsert (`services/error_service.rs`, `record_error`),
* the executor's step iteration and fail-fast rule (`services/executor.rs`,
  `poll_and_execute`, together with `services/step_executor.rs`),
* the scheduler's claim of a pending build (`services/executor.rs` lines 36-92),
* the push-webhook intake (`routes/webhook.rs`, `handle_push`, together with
  `services/build_service.rs`, `is_duplicate`),
* the success-rate KPI (`dashboard/kpi.rs`, `query_success_rate`).

Machine integers are modelled as `Nat`/`Int`, byte strings as `List Nat`,
Rust `String`s as `List Char` (ASCII model of the Unicode character classes),
database tables as Lean lists, and each SQL statement as one atomic function
on that state.  A Rust expression that can panic is modelled as an
`Option`-valued function returning `none` at the panicking input.
-/

namespace CI

/-! ## Byte-level output truncation (`executor.rs` lines 196-206)

Rust strings are UTF-8 byte sequences; `stdout.len()` is a byte count and
`&stdout[i..]` is a byte slice that panics when `i` is not a character
boundary.  We model a captured output as its list of bytes. -/

/-- The per-field truncation limit, 64 KiB (`executor.rs` line 197). -/
def TRUNC_LIMIT : Nat := 65536

/-- UTF-8 bytes of the marker `"...truncated...\n"` (ASCII). -/
def truncMarker : List Nat := "...truncated...\n".data.map Char.toNat

/-- Rust's `str::is_char_boundary(i)`: true at 0 and at the length, and
otherwise exactly when the byte at `i` is not a UTF-8 continuation byte
(`(b as i8) >= -0x40`, i.e. `b < 0x80 ∨ 0xC0 ≤ b`). -/
def isCharBoundary (s : List Nat) (i : Nat) : Bool :=
  if i = 0 then true
  else
    match s.get? i with
    | none => decide (i = s.length)
    | some b => decide (b < 0x80) || decide (0xC0 ≤ b)

/-- `executor.rs` lines 197-201 (stdout; lines 202-206 are identical for
stderr): `if stdout.len() > 65536 { format!("...truncated...\n{}",
&stdout[stdout.len() - 65536..]) } else { stdout }`.  The byte slice
`&stdout[i..]` panics when `i` is not a char boundary; the panic is
modelled as `none`. -/
def truncateOutput (s : List Nat) : Option (List Nat) :=
  if s.length > TRUNC_LIMIT then
    if isCharBoundary s (s.length - TRUNC_LIMIT) then
      some (truncMarker ++ s.drop (s.length - TRUNC_LIMIT))
    else none
  else some s

/-! ## Byte-level title truncation (`error_service.rs` lines 79-84)

`let title = if title.len() > 200 { &title[..200] } else { title }` on the
first line of the raw text; `&title[..200]` panics when byte 200 is not a
character boundary. -/

/-- The 200-byte title limit of `error_service.rs` line 80. -/
def TITLE_LIMIT : Nat := 200

/-- `error_service.rs` lines 80-84, with the panicking slice as `none`. -/
def truncateTitle (t : List Nat) : Option (List Nat) :=
  if t.length > TITLE_LIMIT then
    if isCharBoundary t TITLE_LIMIT then some (t.take TITLE_LIMIT) else none
  else some t

/-! ## Error-text normalization (`error_service.rs` lines 11-20)

```text
static NUMERIC_REGEX = Regex::new(r"\b\d+\b")
static PATH_REGEX    = Regex::new(slash followed by class chars)
fn normalize(text) =
  let text = NUMERIC_REGEX.replace_all(text, "N");
  let text = PATH_REGEX.replace_all(&text, "PATH");
  text.split_whitespace().collect::<Vec<_>>().join(" ")
```

Each `replace_all` is modelled as a left-to-right scanner over the character
list; the character classes are the ASCII parts of the regex classes. -/

/-- ASCII model of the regex word class `\w` (the class that defines the
`\b` word boundaries): letters, digits and underscore. -/
def isWordChar (c : Char) : Bool := c.isAlphanum || c = '_'

/-- ASCII model of the regex digit class `\d`. -/
def isDigitChar (c : Char) : Bool := c.isDigit

/-- The character class of `PATH_REGEX`: letters, digits, underscore,
dot, slash and dash. -/
def isPathChar (c : Char) : Bool :=
  c.isAlphanum || c = '_' || c = '.' || c = '/' || c = '-'

/-- Whitespace as recognized by `split_whitespace` (ASCII model). -/
def isWsChar (c : Char) : Bool := c.isWhitespace

/-- Scanner for `NUMERIC_REGEX.replace_all(text, "N")` where
`NUMERIC_REGEX = \b\d+\b`.  A match is a maximal run of digits whose two
neighbours (or the text ends) are non-word characters; a digit run touching
a word character on either side does not match, because between two word
characters there is no `\b` boundary.  `prevWord` records whether the
character before the current position is a word character; `pending` is the
candidate digit run read so far (empty when not inside a candidate run,
which is entered only at a digit with a leading boundary). -/
def s1go (prevWord : Bool) (pending : List Char) : List Char → List Char
  | [] => if pending.isEmpty then [] else ['N']
  | c :: rest =>
    if pending.isEmpty then
      if isDigitChar c && !prevWord then s1go prevWord [c] rest
      else c :: s1go (isWordChar c) [] rest
    else
      if isDigitChar c then s1go prevWord (pending ++ [c]) rest
      else if isWordChar c then pending ++ c :: s1go true [] rest
      else 'N' :: c :: s1go false [] rest

/-- Stage 1 of `normalize`: digit runs delimited by word boundaries become
`N`. -/
def stage1 (l : List Char) : List Char := s1go false [] l

/-- Scanner state for `PATH_REGEX.replace_all`: `inSlash` after reading a
`'/'` that has not yet matched, `inRun` inside a match. -/
inductive PathMode
  | scan
  | inSlash
  | inRun

/-- The replacement text of `PATH_REGEX.replace_all`. -/
def pathToken : List Char := ['P', 'A', 'T', 'H']

/-- Scanner for `PATH_REGEX.replace_all(text, "PATH")` where
`PATH_REGEX` (a slash followed
by at least one class character): a match begins at a `'/'` followed by at
least one class character and extends over the maximal class-character run;
the whole match is replaced by `PATH`.  A `'/'` not followed by a class
character matches nothing and is kept. -/
def s2go : PathMode → List Char → List Char
  | .scan, [] => []
  | .scan, c :: rest =>
    if c = '/' then s2go .inSlash rest else c :: s2go .scan rest
  | .inSlash, [] => ['/']
  | .inSlash, c :: rest =>
    if isPathChar c then s2go .inRun rest else '/' :: c :: s2go .scan rest
  | .inRun, [] => pathToken
  | .inRun, c :: rest =>
    if isPathChar c then s2go .inRun rest else pathToken ++ c :: s2go .scan rest

/-- Stage 2 of `normalize`: absolute-path runs become `PATH`. -/
def stage2 (l : List Char) : List Char := s2go .scan l

/-- Scanner state for whitespace collapsing: `atStart` while only leading
whitespace has been seen, `inWord` directly after a word character,
`inGap` inside interior whitespace (a single `' '` is emitted when the next
word begins). -/
inductive WsMode
  | atStart
  | inWord
  | inGap

/-- Scanner for `split_whitespace().collect::<Vec<_>>().join(" ")`: leading
and trailing whitespace is dropped and every interior whitespace run is
collapsed to a single space. -/
def s3go : WsMode → List Char → List Char
  | _, [] => []
  | m, c :: rest =>
    if isWsChar c then
      s3go (match m with | .atStart => .atStart | _ => .inGap) rest
    else
      match m with
      | .inGap => ' ' :: c :: s3go .inWord rest
      | _ => c :: s3go .inWord rest

/-- Stage 3 of `normalize`: whitespace collapsing. -/
def stage3 (l : List Char) : List Char := s3go .atStart l

/-- `error_service.rs` `normalize` on character lists: digits, then paths,
then whitespace. -/
def normalizeText (l : List Char) : List Char := stage3 (stage2 (stage1 l))

/-- `error_service.rs` `normalize`. -/
def normalize (s : String) : String := ⟨normalizeText s.data⟩

/-- The stage-1 scanner's `prevWord` state after consuming a text `u` that
does not end inside a digit run: the wordness of `u`'s last character, or
the incoming state `b` when `u` is empty. -/
def afterState (u : List Char) (b : Bool) : Bool :=
  match u.getLast? with
  | none => b
  | some c => isWordChar c

/-- Acceptance scanner for stage 1: `s1chk μ l = true` exactly when running
the stage-1 scanner over `l` starting in mode `μ` (`some pw` = scanning with
`prevWord = pw`, `none` = inside a digit run entered at a leading boundary)
performs no replacement, i.e. every digit run entered with a leading
boundary ends at a word character. -/
def s1chk : Option Bool → List Char → Bool
  | some _, [] => true
  | none, [] => false
  | some pw, c :: rest =>
    if isDigitChar c && !pw then s1chk none rest
    else s1chk (some (isWordChar c)) rest
  | none, c :: rest =>
    if isDigitChar c then s1chk none rest
    else if isWordChar c then s1chk (some true) rest
    else false

/-- Acceptance scanner for stage 2: true exactly when no `'/'` is
immediately followed by a path-class character, so the stage-2 scanner
replaces nothing. -/
def noSlash : List Char → Bool
  | [] => true
  | [_] => true
  | c :: d :: rest => !(c = '/' && isPathChar d) && noSlash (d :: rest)

/-! ## The executor's step loop (`executor.rs` lines 154-264, with
`step_executor.rs`)

The loop is modelled over an oracle `run : Nat → StepResult` giving, for
the step at 0-based index `seq`, the `(exit_code, stdout, stderr)` triple
produced by the capture-truncate-or-timeout block of lines 178-215 and the
measured duration of line 217.  The database effects (`start_step` +
`complete_step`) appear as `StepRow`s in the trace; `executed` records the
commands actually handed to the shell; `classifierCalls` records calls to
`error_service::record_error` — the source makes none. -/

/-- One entry of `pipeline.steps` (`executor.rs` lines 328-331). -/
structure StepDef where
  name : String
  command : String
deriving DecidableEq

/-- The outcome of the command block, lines 191-215. -/
structure StepResult where
  exitCode : Int
  stdout : String
  stderr : String
  durationMs : Int
deriving DecidableEq

/-- A `ci_build_steps` row after `complete_step`. -/
structure StepRow where
  name : String
  sequence : Int
  status : String
  exitCode : Int
  durationMs : Int
  stdout : Option String
  stderr : Option String
deriving DecidableEq

/-- `step_executor.rs` `complete_step` (lines 38-61): the stored row;
status is derived from the exit code (`exit_code == 0 ⇒ success`). -/
def completeStepRow (name : String) (sequence : Int) (exitCode : Int)
    (durationMs : Int) (stdout stderr : Option String) : StepRow :=
  { name := name, sequence := sequence,
    status := if exitCode = 0 then "success" else "failure",
    exitCode := exitCode, durationMs := durationMs,
    stdout := stdout, stderr := stderr }

/-- `executor.rs` lines 240-251: the row recorded for a step skipped after
the first failure (`complete_step(skip_id, -1, 0, None, Some("Skipped
(previous step failed)"))`); `seq` is the 0-based index. -/
def skippedRow (s : StepDef) (seq : Nat) : StepRow :=
  completeStepRow s.name (Int.ofNat (seq + 1)) (-1) 0 none
    (some "Skipped (previous step failed)")

/-- The rows recorded by the skip loop of lines 240-251. -/
def skipRows : List StepDef → Nat → List StepRow
  | [], _ => []
  | s :: rest, seq => skippedRow s seq :: skipRows rest (seq + 1)

/-- Observable effects of the step loop. -/
structure ExecTrace where
  steps : List StepRow
  executed : List String
  classifierCalls : List (String × String)
  allPassed : Bool
deriving DecidableEq

/-- `executor.rs` lines 154-261: iterate the steps in order; on the first
non-zero exit code record all remaining steps as skipped and break.  The
loop contains no call to `error_service::record_error`, so
`classifierCalls` never receives an element. -/
def runSteps (run : Nat → StepResult) : List StepDef → Nat → ExecTrace
  | [], _ =>
    { steps := [], executed := [], classifierCalls := [], allPassed := true }
  | s :: rest, seq =>
    let r := run seq
    let row := completeStepRow s.name (Int.ofNat (seq + 1)) r.exitCode
      r.durationMs (some r.stdout) (some r.stderr)
    if r.exitCode ≠ 0 then
      { steps := row :: skipRows rest (seq + 1),
        executed := [s.command],
        classifierCalls := [],
        allPassed := false }
    else
      let t := runSteps run rest (seq + 1)
      { steps := row :: t.steps,
        executed := s.command :: t.executed,
        classifierCalls := t.classifierCalls,
        allPassed := t.allPassed }

/-- `executor.rs` line 263: the terminal build status. -/
def finalStatus (t : ExecTrace) : String :=
  if t.allPassed then "success" else "failure"

/-- The whole step loop, starting at sequence 1 (0-based index 0). -/
def runPipeline (run : Nat → StepResult) (steps : List StepDef) : ExecTrace :=
  runSteps run steps 0

/-- The pipeline of scenario S4: `a` passes, `b` fails, `c` never runs. -/
def stepsS4 : List StepDef :=
  [{ name := "a", command := "true" },
   { name := "b", command := "false" },
   { name := "c", command := "true" }]

/-- Oracle for scenario S4: step 0 exits 0, step 1 exits 1. -/
def runS4 : Nat → StepResult := fun i =>
  if i = 0 then { exitCode := 0, stdout := "", stderr := "", durationMs := 1 }
  else { exitCode := 1, stdout := "", stderr := "boom", durationMs := 1 }

/-! ## The scheduler's claim of a pending build (`executor.rs` lines 36-92)

`poll_and_execute` issues two separate SQL statements: the `SELECT` of
lines 51-65 and the `UPDATE` of lines 80-86.  There is no enclosing
transaction in the source.  Each statement is modelled as one atomic
function on the builds table, and a run of two concurrent scheduler
instances as an interleaving of their statements. -/

/-- A `ci_builds` row as the scheduler sees it. -/
structure SchedBuild where
  id : Nat
  status : String
  startedAt : Option Nat
deriving DecidableEq

/-- Lines 51-65: `SELECT .. WHERE status = 'pending' ORDER BY id ASC`,
first row — the pending row of smallest id. -/
def selectPending : List SchedBuild → Option SchedBuild
  | [] => none
  | b :: rest =>
    if b.status = "pending" then
      match selectPending rest with
      | none => some b
      | some c => if b.id ≤ c.id then some b else some c
    else selectPending rest

/-- Lines 80-86: `UPDATE ci_builds SET status = 'running', started_at = now
WHERE id = bid`. -/
def markRunning (db : List SchedBuild) (bid : Nat) (now : Nat) :
    List SchedBuild :=
  db.map fun b =>
    if b.id = bid then { b with status := "running", startedAt := some now }
    else b

/-- The claim operation as the source performs it — select, then update, as
two separate statements — run without interference. -/
def claimNext (db : List SchedBuild) (now : Nat) :
    Option SchedBuild × List SchedBuild :=
  match selectPending db with
  | none => (none, db)
  | some b => (some b, markRunning db b.id now)

/-- Progress of one scheduler instance through its two statements. -/
inductive SchedPhase
  | idle
  | picked (b : SchedBuild)
  | claimed (b : SchedBuild)
  | noWork
deriving DecidableEq

/-- One atomic statement of one scheduler instance. -/
def schedStep (now : Nat) :
    SchedPhase × List SchedBuild → SchedPhase × List SchedBuild
  | (.idle, db) =>
    match selectPending db with
    | none => (.noWork, db)
    | some b => (.picked b, db)
  | (.picked b, db) => (.claimed b, markRunning db b.id now)
  | (st, db) => (st, db)

/-- Two scheduler instances over one shared builds table. -/
structure TwoScheds where
  db : List SchedBuild
  first : SchedPhase
  second : SchedPhase
deriving DecidableEq

/-- One interleaving step: `who = false` runs the first instance's next
statement, `who = true` the second's. -/
def twoStep (now : Nat) (st : TwoScheds) (who : Bool) : TwoScheds :=
  if who then
    let p := schedStep now (st.second, st.db)
    { st with second := p.1, db := p.2 }
  else
    let p := schedStep now (st.first, st.db)
    { st with first := p.1, db := p.2 }

/-- Run a given interleaving of the two instances' statements. -/
def runSchedule (now : Nat) : TwoScheds → List Bool → TwoScheds
  | st, [] => st
  | st, w :: ws => runSchedule now (twoStep now st w) ws

/-! ## Push-webhook intake (`routes/webhook.rs` lines 55-148) -/

/-- A `ci_projects` row as the intake sees it. -/
structure WProject where
  githubRepo : String
  active : Bool
deriving DecidableEq

/-- `project_service.rs` `find_by_repo` (lines 20-31): exact match on
`github_repo`, `active = true`, first row. -/
def find_by_repo (projects : List WProject) (repo : String) :
    Option WProject :=
  (projects.filter fun p => p.githubRepo = repo && p.active).head?

/-- A `ci_builds` row as the intake sees it; `create_date` is assigned at
insert. -/
structure WBuild where
  fingerprint : String
  status : String
  createDate : Int
deriving DecidableEq

/-- `build_service.rs` `is_duplicate` (lines 31-47): a build with this
fingerprint exists with `create_date > now - window`. -/
def is_duplicate (builds : List WBuild) (fp : String) (now window : Int) :
    Bool :=
  (builds.filter fun b =>
    b.fingerprint = fp && b.createDate > now - window).length > 0

/-- Line 97: `format!("{}-{}-push", commit_sha, branch)`. -/
def dedupFingerprint (sha branch : String) : String :=
  sha ++ "-" ++ branch ++ "-push"

/-- `routes/webhook.rs` `handle_push` (lines 55-148) with one `now` per
request: empty SHA or branch → 200, unknown repo → 200, duplicate within
the window → 200 and no insert, otherwise insert one `pending` build and
reply 201.  Store errors and the fire-and-forget status callback are
outside the model. -/
def handle_push (projects : List WProject) (builds : List WBuild)
    (now window : Int) (repo sha branch : String) : Nat × List WBuild :=
  if sha = "" ∨ branch = "" then (200, builds)
  else
    match find_by_repo projects repo with
    | none => (200, builds)
    | some _ =>
      let fp := dedupFingerprint sha branch
      if is_duplicate builds fp now window then (200, builds)
      else
        (201, builds ++
          [{ fingerprint := fp, status := "pending", createDate := now }])

/-! ## Error catalog upsert (`error_service.rs` `record_error`,
lines 46-126) -/

/-- A `ci_errors` row; only the columns the catalog invariant touches are
kept (category, severity, title, raw and normalized text and
`first_seen_at` do not appear in any claim). -/
structure ErrorRow where
  id : Nat
  tenantId : Nat
  fingerprint : String
  occurrenceCount : Int
  lastSeenAt : Int
deriving DecidableEq

/-- A `ci_error_occurrences` row. -/
structure OccRow where
  tenantId : Nat
  errorId : Nat
  buildId : Nat
  stepName : String
  rawOutput : Option String
deriving DecidableEq

/-- The error-catalog state; `nextErrorId` models the store's id
allocation. -/
structure ErrorDb where
  errors : List ErrorRow
  occs : List OccRow
  nextErrorId : Nat
deriving DecidableEq

/-- `error_service.rs` lines 46-126.  `fp` stands for the value
`fingerprint(normalize(raw_text))` of lines 54-55 — the hex-encoded first
16 bytes of a SHA-256, left uninterpreted by the claims and not modelled.
The lookup
filters on fingerprint and tenant (lines 60-65); on a hit the count is
incremented from the value read (line 71) and `last_seen_at` set; on a miss
a fresh row with `occurrence_count = 1` is inserted; in both branches one
occurrence row is inserted (lines 110-122). -/
def record_error (db : ErrorDb) (tenant : Nat) (fp : String)
    (buildId : Nat) (stepName : String) (raw : String) (now : Int) :
    ErrorDb × Nat :=
  match db.errors.find? (fun e => e.fingerprint = fp && e.tenantId = tenant) with
  | some err =>
    ({ errors := db.errors.map fun e =>
         if e.id = err.id then
           { e with occurrenceCount := err.occurrenceCount + 1,
                    lastSeenAt := now }
         else e,
       occs := db.occs ++ [⟨tenant, err.id, buildId, stepName, some raw⟩],
       nextErrorId := db.nextErrorId }, err.id)
  | none =>
    ({ errors := db.errors ++ [⟨db.nextErrorId, tenant, fp, 1, now⟩],
       occs := db.occs ++
         [⟨tenant, db.nextErrorId, buildId, stepName, some raw⟩],
       nextErrorId := db.nextErrorId + 1 }, db.nextErrorId)

/-- The catalog invariant of the claim — at most one error row per
`(tenant, fingerprint)` and `occurrence_count` equal to the number of
occurrence rows referencing the row — together with the store's id
bookkeeping (serial ids are unique and below the allocator). -/
def ErrCatalogInv (db : ErrorDb) : Prop :=
  (∀ e1 ∈ db.errors, ∀ e2 ∈ db.errors,
    e1.tenantId = e2.tenantId → e1.fingerprint = e2.fingerprint → e1 = e2) ∧
  (∀ e1 ∈ db.errors, ∀ e2 ∈ db.errors, e1.id = e2.id → e1 = e2) ∧
  (∀ e ∈ db.errors, e.id < db.nextErrorId) ∧
  (∀ o ∈ db.occs, o.errorId < db.nextErrorId) ∧
  (∀ e ∈ db.errors,
    e.occurrenceCount =
      ((db.occs.filter fun o => o.errorId = e.id).length : Int))

/-! ## Success-rate KPI (`dashboard/kpi.rs` lines 19-35) -/

/-- A `ci_builds` row as the KPI query sees it. -/
structure KpiBuild where
  status : String
  createDate : Int
deriving DecidableEq

/-- The `BuildSuccessRate` projection; the SQL float is modelled exactly in
`ℚ`. -/
structure SuccessRate where
  total : Nat
  success : Nat
  rate : ℚ
deriving DecidableEq

/-- `kpi.rs` lines 19-35: counts over rows with `create_date >= NOW() -
INTERVAL 'D days'` and `status IN ('success','failure')`;
`rate = COALESCE(success::float / NULLIF(total, 0), 0)`. -/
def query_success_rate (builds : List KpiBuild) (now : Int) (days : Int) :
    SuccessRate :=
  let window := builds.filter fun b =>
    b.createDate ≥ now - days * 86400 &&
      (b.status = "success" || b.status = "failure")
  let total := window.length
  let succ := (window.filter fun b => b.status = "success").length
  { total := total, success := succ,
    rate := if total = 0 then 0 else (succ : ℚ) / (total : ℚ) }

/-- C5: whenever the truncation computation stores a value, an output of at
most 65 536 bytes (in particular exactly 65 536 bytes) is stored unchanged, and
a longer output is stored as the marker `"...truncated...\n"` followed by
exactly its trailing 65 536 bytes. -/
theorem C5_output_truncation (s r : List Nat) (h : truncateOutput s = some r) :
    (s.length ≤ TRUNC_LIMIT → r = s) ∧
    (TRUNC_LIMIT < s.length → r = truncMarker ++ s.drop (s.length - TRUNC_LIMIT)) := by
  unfold truncateOutput at h
  by_cases hgt : s.length > TRUNC_LIMIT
  · rw [if_pos hgt] at h
    by_cases hb : isCharBoundary s (s.length - TRUNC_LIMIT) = true
    · rw [if_pos hb] at h
      exact ⟨fun hle => absurd hgt (by omega), fun _ => (Option.some.inj h).symm⟩
    · rw [if_neg hb] at h
      exact absurd h (by simp)
  · rw [if_neg hgt] at h
    exact ⟨fun _ => (Option.some.inj h).symm, fun hlt => absurd hlt hgt⟩

/-- Witness for C5 at concrete inputs: 65 536 × `'a'` is stored untruncated,
and 65 537 × `'a'` is stored as the marker followed by the last 65 536 bytes. -/
theorem C5_output_truncation_witness :
    (List.replicate 65536 (97:Nat) = List.replicate 65536 (97:Nat)) ∧
    (truncMarker ++ List.replicate 65536 (97:Nat) =
      truncMarker ++ (List.replicate 65537 (97:Nat)).drop
        ((List.replicate 65537 (97:Nat)).length - TRUNC_LIMIT)) := by
  have hlen1 : (List.replicate 65536 (97:Nat)).length = 65536 :=
    List.length_replicate 65536 97
  have hlen2 : (List.replicate 65537 (97:Nat)).length = 65537 :=
    List.length_replicate 65537 97
  have hsome1 : truncateOutput (List.replicate 65536 97) =
      some (List.replicate 65536 97) := by
    unfold truncateOutput
    rw [hlen1]
    norm_num [TRUNC_LIMIT]
  have hg : (List.replicate 65537 (97:Nat)).get? 1 = some 97 := by
    rw [List.get?_eq_getElem?, List.getElem?_replicate]
    norm_num
  have hb2 : isCharBoundary (List.replicate 65537 97) 1 = true := by
    unfold isCharBoundary
    rw [hg]
    norm_num
  have hsome2 : truncateOutput (List.replicate 65537 97) =
      some (truncMarker ++ List.replicate 65536 97) := by
    unfold truncateOutput
    rw [hlen2]
    have hidx : 65537 - TRUNC_LIMIT = 1 := by norm_num [TRUNC_LIMIT]
    rw [hidx, if_pos (by norm_num [TRUNC_LIMIT] : (65537:Nat) > TRUNC_LIMIT), if_pos hb2,
      List.drop_replicate]
  exact ⟨(C5_output_truncation _ _ hsome1).1 (by rw [hlen1]; norm_num [TRUNC_LIMIT]),
    (C5_output_truncation _ _ hsome2).2 (by rw [hlen2]; norm_num [TRUNC_LIMIT])⟩

/-- C6 (refuted; the code panics): a step output consisting of the two-byte
character `'é'` (bytes `0xC3 0xA9`) followed by 65 535 `'a'` bytes makes the
executor's truncation slice at a non-character boundary, and a first line of
199 `'a'` bytes followed by `'é'` makes the classifier's title truncation
slice at a non-character boundary — both computations panic (`none`) instead
of returning a result. -/
theorem C6_truncation_panics :
    truncateOutput (0xC3 :: 0xA9 :: List.replicate 65535 97) = none ∧
    truncateTitle (List.replicate 199 97 ++ [0xC3, 0xA9]) = none := by
  constructor
  · have hlen : (0xC3 :: 0xA9 :: List.replicate 65535 (97:Nat)).length = 65537 := by
      rw [List.length_cons, List.length_cons, List.length_replicate]
    have hg : (0xC3 :: 0xA9 :: List.replicate 65535 (97:Nat)).get? 1 = some 0xA9 := rfl
    have hb : isCharBoundary (0xC3 :: 0xA9 :: List.replicate 65535 97) 1 = false := by
      unfold isCharBoundary
      rw [hg]
      norm_num
    unfold truncateOutput
    rw [hlen]
    have hidx : 65537 - TRUNC_LIMIT = 1 := by norm_num [TRUNC_LIMIT]
    rw [hidx, if_pos (by norm_num [TRUNC_LIMIT] : (65537:Nat) > TRUNC_LIMIT), if_neg
      (by rw [hb]; exact Bool.false_ne_true)]
  · have hlen : (List.replicate 199 (97:Nat) ++ [0xC3, 0xA9]).length = 201 := by
      rw [List.length_append, List.length_replicate]
      rfl
    have hg : (List.replicate 199 (97:Nat) ++ [0xC3, 0xA9]).get? 200 = some 0xA9 := by
      rw [List.get?_eq_getElem?, List.getElem?_append_right (by
        rw [List.length_replicate]; norm_num : (List.replicate 199 (97:Nat)).length ≤ 200)]
      rw [List.length_replicate]
      norm_num
    have hb : isCharBoundary (List.replicate 199 (97:Nat) ++ [0xC3, 0xA9]) 200 = false := by
      unfold isCharBoundary
      rw [hg]
      norm_num
    unfold truncateTitle
    have hTL : TITLE_LIMIT = 200 := rfl
    rw [hTL, hlen, if_pos (by norm_num : (201:Nat) > 200), if_neg
      (by rw [hb]; exact Bool.false_ne_true)]

/-! ### Stage-1 helper lemmas -/

/-- Inside a candidate run, an all-digit remainder collapses to `N`. -/
theorem s1go_digits_in_run (ds : List Char) (b : Bool) (p : List Char)
    (hp : p ≠ []) (hds : ∀ c ∈ ds, isDigitChar c = true) :
    s1go b p ds = ['N'] := by
  induction ds generalizing p with
  | nil =>
    simp [s1go, List.isEmpty_iff, hp]
  | cons c rest ih =>
    have hc : isDigitChar c = true := hds c (List.mem_cons_self c rest)
    have hrest : ∀ x ∈ rest, isDigitChar x = true :=
      fun x hx => hds x (List.mem_cons_of_mem c hx)
    simp only [s1go, List.isEmpty_iff, hp, if_neg hp, hc, if_pos]
    have hne : p ++ [c] ≠ [] := by simp
    simpa [hp] using ih (p ++ [c]) hne hrest

/-- A digit is a word character. -/
theorem word_of_digit {c : Char} (h : isDigitChar c = true) :
    isWordChar c = true := by
  simp only [isDigitChar] at h
  simp [isWordChar, Char.isAlphanum, h]

/-- A digit is a path-class character. -/
theorem path_of_digit {c : Char} (h : isDigitChar c = true) :
    isPathChar c = true := by
  simp only [isDigitChar] at h
  simp [isPathChar, Char.isAlphanum, h]

/-- A word character is a path-class character. -/
theorem path_of_word {c : Char} (h : isWordChar c = true) :
    isPathChar c = true := by
  simp only [isWordChar, Bool.or_eq_true] at h
  rcases h with h | h
  · simp [isPathChar, h]
  · simp [isPathChar, h]

/-- `'/'` is not a word character. -/
theorem slash_not_word : isWordChar '/' = false := by decide

/-- A word character is not `'/'`. -/
theorem ne_slash_of_word {c : Char} (h : isWordChar c = true) : c ≠ '/' := by
  intro hc
  rw [hc] at h
  exact absurd h (by decide)

/-- A path-class character is not whitespace; conversely whitespace is
neither a word character nor a digit nor a path character. -/
theorem ws_not_word {c : Char} (h : isWsChar c = true) :
    isWordChar c = false ∧ isDigitChar c = false ∧ isPathChar c = false := by
  simp only [isWsChar, Char.isWhitespace, Bool.or_eq_true, decide_eq_true_eq] at h
  rcases h with ((h | h) | h) | h <;> subst h <;>
    exact ⟨by decide, by decide, by decide⟩

/-- With a word character on the left, digits are copied unchanged (no
leading boundary). -/
theorem s1go_digits_after_word (ds : List Char)
    (hds : ∀ c ∈ ds, isDigitChar c = true) :
    s1go true [] ds = ds := by
  induction ds with
  | nil => simp [s1go]
  | cons c rest ih =>
    have hc : isDigitChar c = true := hds c (List.mem_cons_self c rest)
    have hrest : ∀ x ∈ rest, isDigitChar x = true :=
      fun x hx => hds x (List.mem_cons_of_mem c hx)
    simp [s1go, hc, word_of_digit hc, ih hrest]

/-- C7 counterexample: the first normalization stage does **not** replace the
digit run in `"E0425"` — `NUMERIC_REGEX` is `\b\d+\b` and there is no word
boundary between `'E'` and `'0'`, so a digit run immediately adjacent to a
letter is left unchanged, contradicting the claim that every maximal digit
run is replaced. -/
theorem C7_digit_adjacent_counterexample :
    stage1 "E0425".data = "E0425".data ∧
    stage1 "E0425".data ≠ "EN".data ∧
    normalize "E0425" = "E0425" := by decide

/-! ### Idempotence machinery: equation lemmas for the scanners -/

theorem s1go_nil (b : Bool) (p : List Char) :
    s1go b p [] = if p.isEmpty then [] else ['N'] := rfl

theorem s1go_cons_empty (b : Bool) (c : Char) (rest : List Char) :
    s1go b [] (c :: rest) =
      if isDigitChar c && !b then s1go b [c] rest
      else c :: s1go (isWordChar c) [] rest := by
  simp [s1go]

theorem s1go_cons_pending (b : Bool) (p : List Char) (c : Char)
    (rest : List Char) (hp : p ≠ []) :
    s1go b p (c :: rest) =
      if isDigitChar c then s1go b (p ++ [c]) rest
      else if isWordChar c then p ++ c :: s1go true [] rest
      else 'N' :: c :: s1go false [] rest := by
  simp [s1go, List.isEmpty_iff, hp]

theorem afterState_nil (b : Bool) : afterState [] b = b := rfl

theorem afterState_singleton (c : Char) (b : Bool) :
    afterState [c] b = isWordChar c := by
  simp [afterState]

theorem afterState_cons {u : List Char} (c : Char) (hu : u ≠ [])
    (b b' : Bool) : afterState (c :: u) b = afterState u b' := by
  obtain ⟨e, he⟩ := Option.isSome_iff_exists.mp (List.getLast?_isSome.mpr hu)
  obtain ⟨d, t, rfl⟩ := List.exists_cons_of_ne_nil hu
  simp only [afterState, List.getLast?_cons_cons, he]

/-- Inside a candidate run with remaining digits `ds`, a following
non-word character (or the end of the text) completes the match: the run
becomes `N` and scanning resumes on `v` exactly as a fresh scan of `v`. -/
theorem s1go_run_then_nonword (ds : List Char)
    (hds : ∀ c ∈ ds, isDigitChar c = true) (v : List Char)
    (hv : ∀ c, v.head? = some c → isWordChar c = false) :
    ∀ b p, p ≠ [] → s1go b p (ds ++ v) = 'N' :: s1go false [] v := by
  induction ds with
  | nil =>
    intro b p hp
    cases v with
    | nil =>
      show s1go b p [] = _
      rw [s1go_nil]
      simp [List.isEmpty_iff, hp, s1go_nil]
    | cons c r =>
      have hcw : isWordChar c = false := hv c rfl
      have hcd : isDigitChar c = false := by
        rcases Bool.eq_false_or_eq_true (isDigitChar c) with h | h
        · exact absurd (word_of_digit h) (by simp [hcw])
        · exact h
      show s1go b p (c :: r) = _
      rw [s1go_cons_pending b p c r hp, if_neg (by simp [hcd]),
        if_neg (by simp [hcw]), s1go_cons_empty, if_neg (by simp [hcd]), hcw]
  | cons d ds' ih =>
    intro b p hp
    have hd : isDigitChar d = true := hds d (List.mem_cons_self d ds')
    show s1go b p (d :: (ds' ++ v)) = _
    rw [s1go_cons_pending b p d _ hp, if_pos hd]
    exact ih (fun x hx => hds x (List.mem_cons_of_mem d hx)) b (p ++ [d])
      (by simp)

/-- Inside a candidate run with remaining digits `ds`, a following word
character means the trailing boundary fails: the run is kept unchanged and
scanning continues in word mode. -/
theorem s1go_run_then_word (ds : List Char)
    (hds : ∀ c ∈ ds, isDigitChar c = true) (c : Char) (r : List Char)
    (hcw : isWordChar c = true) (hcd : isDigitChar c = false) :
    ∀ b p, p ≠ [] →
      s1go b p (ds ++ c :: r) = p ++ ds ++ c :: s1go true [] r := by
  induction ds with
  | nil =>
    intro b p hp
    show s1go b p (c :: r) = _
    rw [s1go_cons_pending b p c r hp, if_neg (by simp [hcd]), if_pos hcw]
    simp
  | cons d ds' ih =>
    intro b p hp
    have hd : isDigitChar d = true := hds d (List.mem_cons_self d ds')
    show s1go b p (d :: (ds' ++ c :: r)) = _
    rw [s1go_cons_pending b p d _ hp, if_pos hd,
      ih (fun x hx => hds x (List.mem_cons_of_mem d hx)) b (p ++ [d])
        (by simp)]
    simp

/-- After a word character there is no leading boundary: a digit block is
copied unchanged and scanning continues in word mode. -/
theorem s1go_digits_after_word_append (ds : List Char)
    (hds : ∀ c ∈ ds, isDigitChar c = true) (x : List Char) :
    s1go true [] (ds ++ x) = ds ++ s1go true [] x := by
  induction ds with
  | nil => rfl
  | cons d ds' ih =>
    have hd : isDigitChar d = true := hds d (List.mem_cons_self d ds')
    show s1go true [] (d :: (ds' ++ x)) = _
    rw [s1go_cons_empty, if_neg (by simp), word_of_digit hd,
      ih (fun y hy => hds y (List.mem_cons_of_mem d hy))]
    rfl

/-- Scanning `u ++ x` decomposes at the boundary whenever `u` does not end
in a digit: the scan of `u` is unchanged and `x` is scanned from the state
after `u`. -/
theorem s1go_append_split (x u : List Char)
    (hlast : ∀ c, u.getLast? = some c → isDigitChar c = false) :
    (∀ b, s1go b [] (u ++ x) = s1go b [] u ++ s1go (afterState u b) [] x) ∧
    (∀ b p, p ≠ [] → u ≠ [] →
      s1go b p (u ++ x) = s1go b p u ++ s1go (afterState u b) [] x) := by
  induction u with
  | nil =>
    exact ⟨fun b => rfl, fun b p hp hu => absurd rfl hu⟩
  | cons c u' ih =>
    have hlast' : ∀ e, u'.getLast? = some e → isDigitChar e = false := by
      intro e he
      apply hlast
      cases u' with
      | nil => exact absurd he (by simp)
      | cons d t => rw [List.getLast?_cons_cons]; exact he
    constructor
    · intro b
      by_cases hcd : (isDigitChar c && !b) = true
      · have hu' : u' ≠ [] := by
          intro h
          subst h
          have hc := hlast c (by simp)
          rcases (Bool.and_eq_true _ _).mp hcd with ⟨h1, _⟩
          simp [h1] at hc
        rw [List.cons_append, s1go_cons_empty, if_pos hcd,
          (ih hlast').2 b [c] (by simp) hu',
          s1go_cons_empty, if_pos hcd, afterState_cons c hu' b b]
      · rw [List.cons_append, s1go_cons_empty, if_neg hcd,
          s1go_cons_empty, if_neg hcd]
        by_cases hu' : u' = []
        · subst hu'
          simp [s1go_nil, afterState_singleton]
        · rw [(ih hlast').1 (isWordChar c),
            afterState_cons c hu' b (isWordChar c)]
          rfl
    · intro b p hp hu
      by_cases hcd : isDigitChar c = true
      · have hu' : u' ≠ [] := by
          intro h
          subst h
          have hc := hlast c (by simp)
          simp [hcd] at hc
        rw [List.cons_append, s1go_cons_pending b p c _ hp, if_pos hcd,
          (ih hlast').2 b (p ++ [c]) (by simp) hu',
          s1go_cons_pending b p c u' hp, if_pos hcd,
          afterState_cons c hu' b b]
      · by_cases hcw : isWordChar c = true
        · rw [List.cons_append, s1go_cons_pending b p c _ hp,
            if_neg (by simp [hcd]), if_pos hcw,
            s1go_cons_pending b p c u' hp, if_neg (by simp [hcd]),
            if_pos hcw]
          by_cases hu' : u' = []
          · subst hu'
            simp [s1go_nil, afterState_singleton, hcw]
          · rw [(ih hlast').1 true, afterState_cons c hu' b true]
            simp
        · rw [List.cons_append, s1go_cons_pending b p c _ hp,
            if_neg (by simp [hcd]), if_neg (by simp [hcw]),
            s1go_cons_pending b p c u' hp, if_neg (by simp [hcd]),
            if_neg (by simp [hcw])]
          by_cases hu' : u' = []
          · subst hu'
            simp [s1go_nil, afterState_singleton,
              show isWordChar c = false from by simpa using hcw]
          · rw [(ih hlast').1 false, afterState_cons c hu' b false]
            simp

/-- C7 amended: in **every** text `u ++ ds ++ v` around a maximal digit run
`ds` (the neighbours are not digits), stage 1 replaces the run with the
literal `N` exactly when both neighbours (or text ends) are non-word
characters, and keeps the run unchanged when either neighbour is a letter,
digit or underscore — in particular `E0425` is left unchanged — and stage 1
runs before path replacement and whitespace collapsing (`normalizeText`). -/
theorem C7_digit_runs_amended (u ds v : List Char) (hds : ds ≠ [])
    (hdig : ∀ c ∈ ds, isDigitChar c = true)
    (humax : ∀ c, u.getLast? = some c → isDigitChar c = false)
    (hvmax : ∀ c, v.head? = some c → isDigitChar c = false) :
    ((∀ c, u.getLast? = some c → isWordChar c = false) →
     (∀ c, v.head? = some c → isWordChar c = false) →
      stage1 (u ++ ds ++ v) = stage1 u ++ 'N' :: stage1 v) ∧
    (((∃ c, u.getLast? = some c ∧ isWordChar c = true) ∨
      (∃ c, v.head? = some c ∧ isWordChar c = true)) →
      stage1 (u ++ ds ++ v) = stage1 u ++ (ds ++ s1go true [] v)) ∧
    stage1 ('E' :: ds) = 'E' :: ds ∧
    normalizeText ds = ['N'] := by
  obtain ⟨d, ds', rfl⟩ := List.exists_cons_of_ne_nil hds
  have hd : isDigitChar d = true := hdig d (List.mem_cons_self d ds')
  have hds' : ∀ x ∈ ds', isDigitChar x = true :=
    fun x hx => hdig x (List.mem_cons_of_mem d hx)
  refine ⟨?_, ?_, ?_, ?_⟩
  · intro huW hvW
    rw [stage1, List.append_assoc, (s1go_append_split _ u humax).1 false]
    have hA : afterState u false = false := by
      cases hu : u.getLast? with
      | none => simp [afterState, hu]
      | some c => simp [afterState, hu, huW c hu]
    rw [hA, List.cons_append, s1go_cons_empty, if_pos (by simp [hd]),
      s1go_run_then_nonword ds' hds' v hvW false [d] (by simp)]
    rfl
  · intro hadj
    rw [stage1, List.append_assoc, (s1go_append_split _ u humax).1 false]
    cases hA : afterState u false with
    | true =>
      rw [s1go_digits_after_word_append (d :: ds') hdig v]
      rfl
    | false =>
      rcases hadj with ⟨c, hc, hw⟩ | ⟨c, hc, hw⟩
      · rw [show afterState u false = isWordChar c by simp [afterState, hc],
          hw] at hA
        exact absurd hA (by simp)
      · cases v with
        | nil => exact absurd hc (by simp)
        | cons e r =>
          obtain rfl : e = c := Option.some.inj hc
          have hcd : isDigitChar e = false := hvmax e rfl
          rw [List.cons_append, s1go_cons_empty, if_pos (by simp [hd]),
            s1go_run_then_word ds' hds' e r hw hcd false [d] (by simp),
            s1go_cons_empty, if_neg (by simp), hw]
          simp [stage1]
  · have hstep : s1go false [] ('E' :: d :: ds') =
        'E' :: s1go (isWordChar 'E') [] (d :: ds') := by
      rw [s1go_cons_empty,
        if_neg (by decide : ¬(isDigitChar 'E' && !false) = true)]
    have hE : isWordChar 'E' = true := by decide
    rw [stage1, hstep, hE, s1go_digits_after_word (d :: ds') hdig]
  · have h1 : stage1 (d :: ds') = ['N'] := by
      rw [stage1, s1go_cons_empty, if_pos (by simp [hd])]
      exact s1go_digits_in_run ds' false [d] (by simp) hds'
    rw [normalizeText, h1]
    decide

/-- Witness for C7 amended on `"x 42 y"` (run replaced in context),
`"E42"` (run kept after a letter), and the bare run `"42"`. -/
theorem C7_digit_runs_amended_witness :
    stage1 (['x', ' '] ++ ['4', '2'] ++ [' ', 'y']) =
      stage1 ['x', ' '] ++ 'N' :: stage1 [' ', 'y'] ∧
    stage1 (['E'] ++ ['4', '2'] ++ []) =
      stage1 ['E'] ++ (['4', '2'] ++ s1go true [] []) ∧
    stage1 ('E' :: ['4', '2']) = 'E' :: ['4', '2'] ∧
    normalizeText ['4', '2'] = ['N'] := by
  have h1 := C7_digit_runs_amended ['x', ' '] ['4', '2'] [' ', 'y']
    (by decide) (by decide)
    (by intro c hc; injection hc with h; subst h; decide)
    (by intro c hc; injection hc with h; subst h; decide)
  have h2 := C7_digit_runs_amended ['E'] ['4', '2'] []
    (by decide) (by decide)
    (by intro c hc; injection hc with h; subst h; decide)
    (by intro c hc; exact absurd hc (by simp))
  refine ⟨?_, ?_, h2.2.2.1, h2.2.2.2⟩
  · exact h1.1
      (by intro c hc; injection hc with h; subst h; decide)
      (by intro c hc; injection hc with h; subst h; decide)
  · exact h2.2.1 (Or.inl ⟨'E', by simp, by decide⟩)

theorem s1chk_some_nil (pw : Bool) : s1chk (some pw) [] = true := rfl

theorem s1chk_none_nil : s1chk none [] = false := rfl

theorem s1chk_some_cons (pw : Bool) (c : Char) (rest : List Char) :
    s1chk (some pw) (c :: rest) =
      if isDigitChar c && !pw then s1chk none rest
      else s1chk (some (isWordChar c)) rest := rfl

theorem s1chk_none_cons (c : Char) (rest : List Char) :
    s1chk none (c :: rest) =
      if isDigitChar c then s1chk none rest
      else if isWordChar c then s1chk (some true) rest
      else false := rfl

/-- An accepted text is a fixed point of the stage-1 scanner. -/
theorem s1chk_accept_id (l : List Char) :
    (∀ b, s1chk (some b) l = true → s1go b [] l = l) ∧
    (∀ b p, p ≠ [] → s1chk none l = true → s1go b p l = p ++ l) := by
  induction l with
  | nil =>
    refine ⟨fun b _ => rfl, fun b p hp h => absurd h (by simp [s1chk_none_nil])⟩
  | cons c rest ih =>
    constructor
    · intro b h
      rw [s1chk_some_cons] at h
      rw [s1go_cons_empty]
      by_cases hc : (isDigitChar c && !b) = true
      · rw [if_pos hc] at h ⊢
        simpa using ih.2 b [c] (by simp) h
      · rw [if_neg hc] at h ⊢
        rw [ih.1 (isWordChar c) h]
    · intro b p hp h
      rw [s1chk_none_cons] at h
      rw [s1go_cons_pending b p c rest hp]
      by_cases hc : isDigitChar c = true
      · rw [if_pos hc] at h ⊢
        rw [ih.2 b (p ++ [c]) (by simp) h, List.append_assoc]
        rfl
      · rw [if_neg hc] at h ⊢
        by_cases hw : isWordChar c = true
        · rw [if_pos hw] at h ⊢
          rw [ih.1 true h]
        · rw [if_neg hw] at h
          exact absurd h (by simp)

/-- Scanning a digit block followed by a word non-digit character, inside a
run, continues in word mode. -/
theorem s1chk_digits_then_word (q : List Char)
    (hq : ∀ x ∈ q, isDigitChar x = true) (c : Char)
    (hcd : isDigitChar c = false) (hcw : isWordChar c = true)
    (out : List Char) :
    s1chk none (q ++ c :: out) = s1chk (some true) out := by
  induction q with
  | nil =>
    rw [List.nil_append, s1chk_none_cons, if_neg (by simp [hcd]), if_pos hcw]
  | cons x q' ih =>
    have hx : isDigitChar x = true := hq x (List.mem_cons_self x q')
    rw [List.cons_append, s1chk_none_cons, if_pos hx]
    exact ih fun y hy => hq y (List.mem_cons_of_mem x hy)

/-- The output of the stage-1 scanner is accepted by the stage-1 acceptance
scanner: stage 1 leaves no digit run that a second pass would replace. -/
theorem s1chk_stage1_self (l : List Char) :
    (∀ b, s1chk (some b) (s1go b [] l) = true) ∧
    (∀ p, p ≠ [] → (∀ x ∈ p, isDigitChar x = true) →
      s1chk (some false) (s1go false p l) = true) := by
  induction l with
  | nil =>
    constructor
    · intro b
      rw [s1go_nil]
      simp [s1chk_some_nil]
    · intro p hp _
      rw [s1go_nil]
      simp [List.isEmpty_iff, hp]
      decide
  | cons c rest ih =>
    constructor
    · intro b
      rw [s1go_cons_empty]
      by_cases hc : (isDigitChar c && !b) = true
      · rw [if_pos hc]
        have hb : b = false := by
          rcases Bool.and_eq_true _ _ |>.mp hc with ⟨_, hnb⟩
          simpa using hnb
        subst hb
        exact ih.2 [c] (by simp)
          (fun x hx => by
            rcases List.mem_singleton.mp hx with rfl
            exact (Bool.and_eq_true _ _ |>.mp hc).1)
      · rw [if_neg hc, s1chk_some_cons, if_neg hc]
        exact ih.1 (isWordChar c)
    · intro p hp hpd
      rw [s1go_cons_pending false p c rest hp]
      by_cases hc : isDigitChar c = true
      · rw [if_pos hc]
        refine ih.2 (p ++ [c]) (by simp) fun x hx => ?_
        rcases List.mem_append.mp hx with hx | hx
        · exact hpd x hx
        · rcases List.mem_singleton.mp hx with rfl
          exact hc
      · rw [if_neg hc]
        by_cases hw : isWordChar c = true
        · rw [if_pos hw]
          obtain ⟨p₀, p', rfl⟩ := List.exists_cons_of_ne_nil hp
          have hp₀ : isDigitChar p₀ = true := hpd p₀ (List.mem_cons_self p₀ p')
          rw [List.cons_append, s1chk_some_cons, if_pos (by simp [hp₀])]
          rw [s1chk_digits_then_word p'
            (fun y hy => hpd y (List.mem_cons_of_mem p₀ hy)) c
            (by simpa using hc) hw]
          exact ih.1 true
        · rw [if_neg hw, s1chk_some_cons,
            if_neg (by decide : ¬(isDigitChar 'N' && !false) = true)]
          rw [show isWordChar 'N' = true from by decide, s1chk_some_cons,
            if_neg (by simp [hc]), show isWordChar c = false from by simpa using hw]
          exact ih.1 false

theorem s2go_scan_nil : s2go .scan [] = [] := rfl

theorem s2go_scan_cons (c : Char) (rest : List Char) :
    s2go .scan (c :: rest) =
      if c = '/' then s2go .inSlash rest else c :: s2go .scan rest := rfl

theorem s2go_inSlash_nil : s2go .inSlash [] = ['/'] := rfl

theorem s2go_inSlash_cons (c : Char) (rest : List Char) :
    s2go .inSlash (c :: rest) =
      if isPathChar c then s2go .inRun rest
      else '/' :: c :: s2go .scan rest := rfl

theorem s2go_inRun_nil : s2go .inRun [] = pathToken := rfl

theorem s2go_inRun_cons (c : Char) (rest : List Char) :
    s2go .inRun (c :: rest) =
      if isPathChar c then s2go .inRun rest
      else pathToken ++ c :: s2go .scan rest := rfl

/-- Scanning one non-digit word character moves the checker to word mode. -/
theorem s1chk_cons_letter (pw : Bool) (c : Char) (hcd : isDigitChar c = false)
    (hcw : isWordChar c = true) (x : List Char) :
    s1chk (some pw) (c :: x) = s1chk (some true) x := by
  rw [s1chk_some_cons, if_neg (by simp [hcd]), hcw]

/-- Scanning the `PATH` replacement token ends in word mode. -/
theorem s1chk_pathToken (pw : Bool) (x : List Char) :
    s1chk (some pw) (pathToken ++ x) = s1chk (some true) x := by
  show s1chk (some pw) ('P' :: 'A' :: 'T' :: 'H' :: x) = s1chk (some true) x
  rw [s1chk_cons_letter pw 'P' (by decide) (by decide),
    s1chk_cons_letter true 'A' (by decide) (by decide),
    s1chk_cons_letter true 'T' (by decide) (by decide),
    s1chk_cons_letter true 'H' (by decide) (by decide)]

/-- Stage 2 (path replacement) preserves acceptance by the stage-1 scanner.
The six conjuncts are the reachable pairs of (input-checker mode, stage-2
scanner mode, output-checker mode): scanning with related word flags, both
inside a digit run, a pending unmatched slash, a pending match with the
input in scanning mode, a pending match with the input inside a digit run,
and the input inside a digit run while the emitted text ends in a word
character. -/
theorem s2_preserves_s1chk (m : List Char) :
    (∀ pwIn pwOut, (pwOut = false → pwIn = false) →
      s1chk (some pwIn) m = true → s1chk (some pwOut) (s2go .scan m) = true) ∧
    (s1chk none m = true → s1chk none (s2go .scan m) = true) ∧
    (s1chk (some false) m = true →
      ∀ pwOut, s1chk (some pwOut) (s2go .inSlash m) = true) ∧
    (∀ pwIn, s1chk (some pwIn) m = true →
      ∀ pwOut, s1chk (some pwOut) (s2go .inRun m) = true) ∧
    (s1chk none m = true → ∀ pwOut, s1chk (some pwOut) (s2go .inRun m) = true) ∧
    (s1chk none m = true → s1chk (some true) (s2go .scan m) = true) := by
  induction m with
  | nil =>
    refine ⟨fun _ pwOut _ _ => s1chk_some_nil pwOut,
      fun hin => absurd hin (by simp [s1chk_none_nil]),
      fun _ pwOut => ?_, fun _ _ pwOut => ?_,
      fun hin => absurd hin (by simp [s1chk_none_nil]),
      fun hin => absurd hin (by simp [s1chk_none_nil])⟩
    · rw [s2go_inSlash_nil, s1chk_some_cons,
        if_neg (by simp [show isDigitChar '/' = false from by decide])]
      exact s1chk_some_nil _
    · rw [s2go_inRun_nil]
      simpa using s1chk_pathToken pwOut []
  | cons c rest ih =>
    refine ⟨?_, ?_, ?_, ?_, ?_, ?_⟩
    · -- (1) both scanning, pwOut = false → pwIn = false
      intro pwIn pwOut himp hin
      rw [s2go_scan_cons]
      by_cases hslash : c = '/'
      · rw [if_pos hslash]
        subst hslash
        rw [s1chk_some_cons,
          if_neg (by simp [show isDigitChar '/' = false from by decide]),
          show isWordChar '/' = false from by decide] at hin
        exact ih.2.2.1 hin pwOut
      · rw [if_neg hslash]
        by_cases hcd : isDigitChar c = true
        · cases pwOut with
          | false =>
            have hpwI : pwIn = false := himp rfl
            subst hpwI
            rw [s1chk_some_cons, if_pos (by simp [hcd])] at hin
            rw [s1chk_some_cons, if_pos (by simp [hcd])]
            exact ih.2.1 hin
          | true =>
            rw [s1chk_some_cons, if_neg (by simp), word_of_digit hcd]
            cases pwIn with
            | false =>
              rw [s1chk_some_cons, if_pos (by simp [hcd])] at hin
              exact ih.2.2.2.2.2 hin
            | true =>
              rw [s1chk_some_cons, if_neg (by simp), word_of_digit hcd] at hin
              exact ih.1 true true (by simp) hin
        · rw [s1chk_some_cons, if_neg (by simp [hcd])] at hin
          rw [s1chk_some_cons, if_neg (by simp [hcd])]
          exact ih.1 (isWordChar c) (isWordChar c) (fun h => h) hin
    · -- (2) both inside a digit run, stage 2 scanning
      intro hin
      rw [s2go_scan_cons]
      rw [s1chk_none_cons] at hin
      by_cases hcd : isDigitChar c = true
      · have hslash : ¬c = '/' := by
          intro h
          subst h
          exact absurd hcd (by decide)
        rw [if_neg hslash, if_pos hcd] at *
        rw [s1chk_none_cons, if_pos hcd]
        exact ih.2.1 hin
      · rw [if_neg hcd] at hin
        by_cases hw : isWordChar c = true
        · rw [if_pos hw] at hin
          rw [if_neg (ne_slash_of_word hw), s1chk_none_cons, if_neg hcd, if_pos hw]
          exact ih.1 true true (by simp) hin
        · rw [if_neg hw] at hin
          exact absurd hin (by simp)
    · -- (3) pending unmatched slash
      intro hin pwOut
      rw [s2go_inSlash_cons]
      by_cases hp : isPathChar c = true
      · rw [if_pos hp]
        by_cases hcd : isDigitChar c = true
        · rw [s1chk_some_cons, if_pos (by simp [hcd])] at hin
          exact ih.2.2.2.2.1 hin pwOut
        · rw [s1chk_some_cons, if_neg (by simp [hcd])] at hin
          exact ih.2.2.2.1 (isWordChar c) hin pwOut
      · rw [if_neg hp]
        have hcd : isDigitChar c = false := by
          rcases Bool.eq_false_or_eq_true (isDigitChar c) with h | h
          · exact absurd (path_of_digit h) (by simp [hp])
          · exact h
        rw [s1chk_some_cons,
          if_neg (by simp [show isDigitChar '/' = false from by decide]),
          show isWordChar '/' = false from by decide,
          s1chk_some_cons, if_neg (by simp [hcd])]
        rw [s1chk_some_cons, if_neg (by simp [hcd])] at hin
        exact ih.1 (isWordChar c) (isWordChar c) (fun h => h) hin
    · -- (4) pending match, input scanning
      intro pwIn hin pwOut
      rw [s2go_inRun_cons]
      by_cases hp : isPathChar c = true
      · rw [if_pos hp]
        by_cases hcd : isDigitChar c = true
        · cases pwIn with
          | false =>
            rw [s1chk_some_cons, if_pos (by simp [hcd])] at hin
            exact ih.2.2.2.2.1 hin pwOut
          | true =>
            rw [s1chk_some_cons, if_neg (by simp), word_of_digit hcd] at hin
            exact ih.2.2.2.1 true hin pwOut
        · rw [s1chk_some_cons, if_neg (by simp [hcd])] at hin
          exact ih.2.2.2.1 (isWordChar c) hin pwOut
      · rw [if_neg hp]
        have hcd : isDigitChar c = false := by
          rcases Bool.eq_false_or_eq_true (isDigitChar c) with h | h
          · exact absurd (path_of_digit h) (by simp [hp])
          · exact h
        rw [s1chk_pathToken, s1chk_some_cons, if_neg (by simp [hcd])]
        rw [s1chk_some_cons, if_neg (by simp [hcd])] at hin
        exact ih.1 (isWordChar c) (isWordChar c) (fun h => h) hin
    · -- (5) pending match, input inside a digit run
      intro hin pwOut
      rw [s2go_inRun_cons]
      rw [s1chk_none_cons] at hin
      by_cases hcd : isDigitChar c = true
      · rw [if_pos (path_of_digit hcd), if_pos hcd] at *
        exact ih.2.2.2.2.1 hin pwOut
      · rw [if_neg hcd] at hin
        by_cases hw : isWordChar c = true
        · rw [if_pos hw] at hin
          rw [if_pos (path_of_word hw)]
          exact ih.2.2.2.1 true hin pwOut
        · rw [if_neg hw] at hin
          exact absurd hin (by simp)
    · -- (6) input inside a digit run, emitted text ends in a word character
      intro hin
      rw [s2go_scan_cons]
      rw [s1chk_none_cons] at hin
      by_cases hcd : isDigitChar c = true
      · have hslash : ¬c = '/' := by
          intro h
          subst h
          exact absurd hcd (by decide)
        rw [if_neg hslash, if_pos hcd] at *
        rw [s1chk_some_cons, if_neg (by simp), word_of_digit hcd]
        exact ih.2.2.2.2.2 hin
      · rw [if_neg hcd] at hin
        by_cases hw : isWordChar c = true
        · rw [if_pos hw] at hin
          rw [if_neg (ne_slash_of_word hw), s1chk_cons_letter _ c (by simpa using hcd) hw]
          exact ih.1 true true (by simp) hin
        · rw [if_neg hw] at hin
          exact absurd hin (by simp)

theorem s3go_nil (m : WsMode) : s3go m [] = [] := rfl

theorem s3go_atStart_ws {c : Char} (h : isWsChar c = true) (rest : List Char) :
    s3go .atStart (c :: rest) = s3go .atStart rest := by
  simp [s3go, h]

theorem s3go_inWord_ws {c : Char} (h : isWsChar c = true) (rest : List Char) :
    s3go .inWord (c :: rest) = s3go .inGap rest := by
  simp [s3go, h]

theorem s3go_inGap_ws {c : Char} (h : isWsChar c = true) (rest : List Char) :
    s3go .inGap (c :: rest) = s3go .inGap rest := by
  simp [s3go, h]

theorem s3go_atStart_nonws {c : Char} (h : isWsChar c = false)
    (rest : List Char) :
    s3go .atStart (c :: rest) = c :: s3go .inWord rest := by
  simp [s3go, h]

theorem s3go_inWord_nonws {c : Char} (h : isWsChar c = false)
    (rest : List Char) :
    s3go .inWord (c :: rest) = c :: s3go .inWord rest := by
  simp [s3go, h]

theorem s3go_inGap_nonws {c : Char} (h : isWsChar c = false)
    (rest : List Char) :
    s3go .inGap (c :: rest) = ' ' :: c :: s3go .inWord rest := by
  simp [s3go, h]

/-- A digit is not whitespace. -/
theorem not_ws_of_digit {c : Char} (h : isDigitChar c = true) :
    isWsChar c = false := by
  rcases Bool.eq_false_or_eq_true (isWsChar c) with hw | hw
  · exact absurd h (by simp [(ws_not_word hw).2.1])
  · exact hw

/-- A word character is not whitespace. -/
theorem not_ws_of_word {c : Char} (h : isWordChar c = true) :
    isWsChar c = false := by
  rcases Bool.eq_false_or_eq_true (isWsChar c) with hw | hw
  · exact absurd h (by simp [(ws_not_word hw).1])
  · exact hw

/-- Stage 3 (whitespace collapsing) preserves acceptance by the stage-1
scanner.  The four conjuncts cover the stage-3 scanner states: leading
whitespace, inside a word, inside a word while the checker is inside a digit
run, and inside interior whitespace with a pending space. -/
theorem s3_preserves_s1chk (m : List Char) :
    (s1chk (some false) m = true → s1chk (some false) (s3go .atStart m) = true) ∧
    (∀ pw, s1chk (some pw) m = true → s1chk (some pw) (s3go .inWord m) = true) ∧
    (s1chk none m = true → s1chk none (s3go .inWord m) = true) ∧
    (s1chk (some false) m = true → ∀ pw, s1chk (some pw) (s3go .inGap m) = true) := by
  induction m with
  | nil =>
    exact ⟨fun _ => rfl, fun _ _ => rfl,
      fun hin => absurd hin (by simp [s1chk_none_nil]), fun _ pw => rfl⟩
  | cons c rest ih =>
    refine ⟨?_, ?_, ?_, ?_⟩
    · -- leading whitespace
      intro hin
      by_cases hws : isWsChar c = true
      · rw [s3go_atStart_ws hws]
        rw [s1chk_some_cons, if_neg (by simp [(ws_not_word hws).2.1]),
          (ws_not_word hws).1] at hin
        exact ih.1 hin
      · rw [s3go_atStart_nonws (by simpa using hws)]
        by_cases hcd : isDigitChar c = true
        · rw [s1chk_some_cons, if_pos (by simp [hcd])] at hin
          rw [s1chk_some_cons, if_pos (by simp [hcd])]
          exact ih.2.2.1 hin
        · rw [s1chk_some_cons, if_neg (by simp [hcd])] at hin
          rw [s1chk_some_cons, if_neg (by simp [hcd])]
          exact ih.2.1 (isWordChar c) hin
    · -- inside a word, checker scanning
      intro pw hin
      by_cases hws : isWsChar c = true
      · rw [s3go_inWord_ws hws]
        rw [s1chk_some_cons, if_neg (by simp [(ws_not_word hws).2.1]),
          (ws_not_word hws).1] at hin
        exact ih.2.2.2 hin pw
      · rw [s3go_inWord_nonws (by simpa using hws)]
        by_cases hcd : isDigitChar c = true
        · cases pw with
          | false =>
            rw [s1chk_some_cons, if_pos (by simp [hcd])] at hin
            rw [s1chk_some_cons, if_pos (by simp [hcd])]
            exact ih.2.2.1 hin
          | true =>
            rw [s1chk_some_cons, if_neg (by simp), word_of_digit hcd] at hin
            rw [s1chk_some_cons, if_neg (by simp), word_of_digit hcd]
            exact ih.2.1 true hin
        · rw [s1chk_some_cons, if_neg (by simp [hcd])] at hin
          rw [s1chk_some_cons, if_neg (by simp [hcd])]
          exact ih.2.1 (isWordChar c) hin
    · -- inside a word, checker inside a digit run
      intro hin
      rw [s1chk_none_cons] at hin
      by_cases hcd : isDigitChar c = true
      · rw [if_pos hcd] at hin
        rw [s3go_inWord_nonws (not_ws_of_digit hcd), s1chk_none_cons,
          if_pos hcd]
        exact ih.2.2.1 hin
      · rw [if_neg hcd] at hin
        by_cases hw : isWordChar c = true
        · rw [if_pos hw] at hin
          rw [s3go_inWord_nonws (not_ws_of_word hw), s1chk_none_cons,
            if_neg hcd, if_pos hw]
          exact ih.2.1 true hin
        · rw [if_neg hw] at hin
          exact absurd hin (by simp)
    · -- interior whitespace with a pending space
      intro hin pw
      by_cases hws : isWsChar c = true
      · rw [s3go_inGap_ws hws]
        rw [s1chk_some_cons, if_neg (by simp [(ws_not_word hws).2.1]),
          (ws_not_word hws).1] at hin
        exact ih.2.2.2 hin pw
      · rw [s3go_inGap_nonws (by simpa using hws)]
        rw [s1chk_some_cons,
          if_neg (by simp [show isDigitChar ' ' = false from by decide]),
          show isWordChar ' ' = false from by decide]
        by_cases hcd : isDigitChar c = true
        · rw [s1chk_some_cons, if_pos (by simp [hcd])] at hin
          rw [s1chk_some_cons, if_pos (by simp [hcd])]
          exact ih.2.2.1 hin
        · rw [s1chk_some_cons, if_neg (by simp [hcd])] at hin
          rw [s1chk_some_cons, if_neg (by simp [hcd])]
          exact ih.2.1 (isWordChar c) hin

theorem noSlash_nil : noSlash [] = true := rfl

theorem noSlash_single (c : Char) : noSlash [c] = true := rfl

theorem noSlash_cons₂ (c d : Char) (rest : List Char) :
    noSlash (c :: d :: rest) =
      (!(c = '/' && isPathChar d) && noSlash (d :: rest)) := rfl

/-- Dropping the head preserves the pairwise slash condition. -/
theorem noSlash_of_cons {c : Char} {l : List Char}
    (h : noSlash (c :: l) = true) : noSlash l = true := by
  cases l with
  | nil => rfl
  | cons d r =>
    rw [noSlash_cons₂] at h
    exact ((Bool.and_eq_true _ _).mp h).2

/-- A head other than `'/'` never violates the pairwise slash condition. -/
theorem noSlash_cons_of_ne {c : Char} (hc : c ≠ '/') (l : List Char) :
    noSlash (c :: l) = noSlash l := by
  cases l with
  | nil => rfl
  | cons d r => simp [noSlash_cons₂, hc]

/-- A non-path-class second character never violates the condition. -/
theorem noSlash_cons_nonpath {d : Char} (hd : isPathChar d = false)
    (c : Char) (rest : List Char) :
    noSlash (c :: d :: rest) = noSlash (d :: rest) := by
  simp [noSlash_cons₂, hd]

/-- The pair condition at the head of a slash-free extension. -/
theorem noSlash_cons_of_head {c : Char} {l : List Char}
    (hpair : ∀ d, l.head? = some d → c = '/' → isPathChar d = false)
    (h : noSlash l = true) : noSlash (c :: l) = true := by
  cases l with
  | nil => rfl
  | cons d r =>
    rw [noSlash_cons₂]
    by_cases hc : c = '/'
    · simp [hc, hpair d rfl hc, h]
    · simp [hc, h]

/-- The slash pair in an accepted text is not followed by a path
character. -/
theorem noSlash_pair {c d : Char} {r : List Char}
    (h : noSlash (c :: d :: r) = true) (hc : c = '/') :
    isPathChar d = false := by
  subst hc
  rw [noSlash_cons₂] at h
  have h1 := ((Bool.and_eq_true _ _).mp h).1
  simpa using h1

/-- An accepted text is a fixed point of the stage-2 scanner. -/
theorem noSlash_s2go_id (l : List Char) (h : noSlash l = true) :
    s2go .scan l = l := by
  induction l with
  | nil => rfl
  | cons c rest ih =>
    cases rest with
    | nil =>
      by_cases hc : c = '/'
      · subst hc
        rfl
      · rw [s2go_scan_cons, if_neg hc, s2go_scan_nil]
    | cons d r =>
      by_cases hc : c = '/'
      · have hd : isPathChar d = false := noSlash_pair h hc
        have hdne : d ≠ '/' := fun hh => by
          subst hh
          exact absurd (by decide : isPathChar '/' = true) (by simp [hd])
        subst hc
        rw [s2go_scan_cons, if_pos rfl, s2go_inSlash_cons,
          if_neg (by simp [hd])]
        have hdr : s2go .scan (d :: r) = d :: r := ih (noSlash_of_cons h)
        rw [s2go_scan_cons, if_neg hdne, List.cons.injEq] at hdr
        rw [hdr.2]
      · rw [s2go_scan_cons, if_neg hc, ih (noSlash_of_cons h)]

/-- Every output of the stage-2 scanner is accepted: no `'/'` in the output
is immediately followed by a path-class character. -/
theorem noSlash_s2go (m : List Char) :
    noSlash (s2go .scan m) = true ∧ noSlash (s2go .inSlash m) = true ∧
    noSlash (s2go .inRun m) = true := by
  induction m with
  | nil => exact ⟨rfl, rfl, by decide⟩
  | cons c rest ih =>
    refine ⟨?_, ?_, ?_⟩
    · rw [s2go_scan_cons]
      by_cases hc : c = '/'
      · rw [if_pos hc]
        exact ih.2.1
      · rw [if_neg hc, noSlash_cons_of_ne hc]
        exact ih.1
    · rw [s2go_inSlash_cons]
      by_cases hp : isPathChar c = true
      · rw [if_pos hp]
        exact ih.2.2
      · rw [if_neg hp]
        have hcp : isPathChar c = false := by simpa using hp
        have hcne : c ≠ '/' := fun hh => by
          subst hh
          exact absurd (by decide : isPathChar '/' = true) (by simp [hcp])
        rw [noSlash_cons_nonpath hcp, noSlash_cons_of_ne hcne]
        exact ih.1
    · rw [s2go_inRun_cons]
      by_cases hp : isPathChar c = true
      · rw [if_pos hp]
        exact ih.2.2
      · rw [if_neg hp]
        have hcp : isPathChar c = false := by simpa using hp
        have hcne : c ≠ '/' := fun hh => by
          subst hh
          exact absurd (by decide : isPathChar '/' = true) (by simp [hcp])
        show noSlash ('P' :: 'A' :: 'T' :: 'H' :: c :: s2go .scan rest) = true
        rw [noSlash_cons_of_ne (by decide), noSlash_cons_of_ne (by decide),
          noSlash_cons_of_ne (by decide), noSlash_cons_of_ne (by decide),
          noSlash_cons_of_ne hcne]
        exact ih.1

/-- The head of the stage-3 scanner's gap-mode output is a space, if any. -/
theorem s3go_inGap_head (rest : List Char) :
    (s3go .inGap rest).head? = none ∨ (s3go .inGap rest).head? = some ' ' := by
  induction rest with
  | nil => exact Or.inl rfl
  | cons c r ih =>
    by_cases hws : isWsChar c = true
    · rw [s3go_inGap_ws hws]
      exact ih
    · rw [s3go_inGap_nonws (by simpa using hws)]
      exact Or.inr rfl

/-- The head of the stage-3 scanner's word-mode output is nothing, a space,
or the head of the remaining input. -/
theorem s3go_inWord_head (rest : List Char) :
    (s3go .inWord rest).head? = none ∨ (s3go .inWord rest).head? = some ' ' ∨
    (∃ d r, rest = d :: r ∧ (s3go .inWord rest).head? = some d) := by
  cases rest with
  | nil => exact Or.inl rfl
  | cons c r =>
    by_cases hws : isWsChar c = true
    · rw [s3go_inWord_ws hws]
      rcases s3go_inGap_head r with h | h
      · exact Or.inl h
      · exact Or.inr (Or.inl h)
    · rw [s3go_inWord_nonws (by simpa using hws)]
      exact Or.inr (Or.inr ⟨c, r, rfl, rfl⟩)

/-- Stage 3 preserves acceptance by the stage-2 scanner: collapsing
whitespace never brings a path-class character directly behind a `'/'`. -/
theorem s3_preserves_noSlash (m : List Char) :
    (noSlash m = true → noSlash (s3go .atStart m) = true) ∧
    (noSlash m = true → noSlash (s3go .inWord m) = true) ∧
    (noSlash m = true → noSlash (s3go .inGap m) = true) := by
  induction m with
  | nil => exact ⟨fun _ => rfl, fun _ => rfl, fun _ => rfl⟩
  | cons c rest ih =>
    have visible : ∀ h : noSlash (c :: rest) = true,
        noSlash (c :: s3go .inWord rest) = true := by
      intro h
      refine noSlash_cons_of_head ?_ (ih.2.1 (noSlash_of_cons h))
      intro d hd hc
      rcases s3go_inWord_head rest with h0 | h0 | ⟨d', r', hrest, h0⟩
      · rw [h0] at hd
        exact absurd hd (by simp)
      · rw [h0] at hd
        rcases Option.some.inj hd with rfl
        decide
      · rw [h0] at hd
        rcases Option.some.inj hd with rfl
        subst hrest
        exact noSlash_pair h hc
    refine ⟨?_, ?_, ?_⟩
    · intro h
      by_cases hws : isWsChar c = true
      · rw [s3go_atStart_ws hws]
        exact ih.1 (noSlash_of_cons h)
      · rw [s3go_atStart_nonws (by simpa using hws)]
        exact visible h
    · intro h
      by_cases hws : isWsChar c = true
      · rw [s3go_inWord_ws hws]
        exact ih.2.2 (noSlash_of_cons h)
      · rw [s3go_inWord_nonws (by simpa using hws)]
        exact visible h
    · intro h
      by_cases hws : isWsChar c = true
      · rw [s3go_inGap_ws hws]
        exact ih.2.2 (noSlash_of_cons h)
      · rw [s3go_inGap_nonws (by simpa using hws),
          noSlash_cons_of_ne (by decide : ' ' ≠ '/')]
        exact visible h

/-- The stage-3 scanner is idempotent. -/
theorem s3go_idem (m : List Char) :
    s3go .atStart (s3go .atStart m) = s3go .atStart m ∧
    s3go .inWord (s3go .inWord m) = s3go .inWord m ∧
    s3go .inWord (s3go .inGap m) = s3go .inGap m := by
  induction m with
  | nil => exact ⟨rfl, rfl, rfl⟩
  | cons c rest ih =>
    refine ⟨?_, ?_, ?_⟩
    · by_cases hws : isWsChar c = true
      · rw [s3go_atStart_ws hws]
        exact ih.1
      · have hws' : isWsChar c = false := by simpa using hws
        rw [s3go_atStart_nonws hws', s3go_atStart_nonws hws', ih.2.1]
    · by_cases hws : isWsChar c = true
      · rw [s3go_inWord_ws hws]
        exact ih.2.2
      · have hws' : isWsChar c = false := by simpa using hws
        rw [s3go_inWord_nonws hws', s3go_inWord_nonws hws', ih.2.1]
    · by_cases hws : isWsChar c = true
      · rw [s3go_inGap_ws hws]
        exact ih.2.2
      · have hws' : isWsChar c = false := by simpa using hws
        rw [s3go_inGap_nonws hws',
          s3go_inWord_ws (by decide : isWsChar ' ' = true),
          s3go_inGap_nonws hws', ih.2.1]

/-- The full normalization pipeline is idempotent on character lists. -/
theorem normalizeText_idem (l : List Char) :
    normalizeText (normalizeText l) = normalizeText l := by
  have ha : s1chk (some false) (normalizeText l) = true := by
    have h0 := (s1chk_stage1_self l).1 false
    have h1 := (s2_preserves_s1chk (stage1 l)).1 false false (fun h => h) h0
    exact (s3_preserves_s1chk (stage2 (stage1 l))).1 h1
  have hb : noSlash (normalizeText l) = true :=
    (s3_preserves_noSlash (stage2 (stage1 l))).1 (noSlash_s2go (stage1 l)).1
  have h1 : stage1 (normalizeText l) = normalizeText l :=
    (s1chk_accept_id (normalizeText l)).1 false ha
  have h2 : stage2 (normalizeText l) = normalizeText l :=
    noSlash_s2go_id _ hb
  have h3 : stage3 (normalizeText l) = normalizeText l :=
    (s3go_idem (stage2 (stage1 l))).1
  show stage3 (stage2 (stage1 (normalizeText l))) = normalizeText l
  rw [h1, h2, h3]

/-- C9: the error-text normalization is idempotent — for every input string
`x`, `normalize (normalize x) = normalize x`. -/
theorem C9_normalize_idempotent (x : String) :
    normalize (normalize x) = normalize x :=
  congrArg String.mk (normalizeText_idem x.data)

/-! ### The executor's fail-fast rule -/

theorem skipRows_length (rest : List StepDef) (q : Nat) :
    (skipRows rest q).length = rest.length := by
  induction rest generalizing q with
  | nil => rfl
  | cons s r ih => simp [skipRows, ih]

theorem skipRows_get? (rest : List StepDef) (q k : Nat) (hk : k < rest.length) :
    (skipRows rest q).get? k = some (skippedRow (rest.get ⟨k, hk⟩) (q + k)) := by
  induction rest generalizing q k with
  | nil => exact absurd hk (by simp)
  | cons s r ih =>
    cases k with
    | zero => rfl
    | succ k' =>
      have hk' : k' < r.length := by simpa using hk
      show (skipRows r (q + 1)).get? k' = _
      rw [ih (q + 1) k' hk']
      have harith : q + 1 + k' = q + (k' + 1) := by omega
      rw [harith]
      rfl

theorem runSteps_cons_fail (run : Nat → StepResult) (st : StepDef)
    (rest : List StepDef) (s : Nat) (hf : (run s).exitCode ≠ 0) :
    runSteps run (st :: rest) s =
      { steps := completeStepRow st.name (Int.ofNat (s + 1)) (run s).exitCode
          (run s).durationMs (some (run s).stdout) (some (run s).stderr)
          :: skipRows rest (s + 1),
        executed := [st.command], classifierCalls := [],
        allPassed := false } := by
  simp [runSteps, hf]

theorem runSteps_cons_pass (run : Nat → StepResult) (st : StepDef)
    (rest : List StepDef) (s : Nat) (h0 : (run s).exitCode = 0) :
    runSteps run (st :: rest) s =
      { steps := completeStepRow st.name (Int.ofNat (s + 1)) (run s).exitCode
          (run s).durationMs (some (run s).stdout) (some (run s).stderr)
          :: (runSteps run rest (s + 1)).steps,
        executed := st.command :: (runSteps run rest (s + 1)).executed,
        classifierCalls := (runSteps run rest (s + 1)).classifierCalls,
        allPassed := (runSteps run rest (s + 1)).allPassed } := by
  simp [runSteps, h0]

/-- The step loop under a first failure at 0-based index `i` of the
remaining steps, with `s` the starting sequence offset. -/
theorem runSteps_fail_fast (run : Nat → StepResult) :
    ∀ (steps : List StepDef) (s i : Nat), i < steps.length →
    (∀ j, j < i → (run (s + j)).exitCode = 0) →
    (run (s + i)).exitCode ≠ 0 →
    (runSteps run steps s).allPassed = false ∧
    (runSteps run steps s).classifierCalls = [] ∧
    (runSteps run steps s).executed =
      (steps.take (i + 1)).map StepDef.command ∧
    (runSteps run steps s).steps.length = steps.length ∧
    (∀ k, i < k → ∀ hk : k < steps.length,
      (runSteps run steps s).steps.get? k =
        some (skippedRow (steps.get ⟨k, hk⟩) (s + k))) := by
  intro steps
  induction steps with
  | nil =>
    intro s i hi
    exact absurd hi (by simp)
  | cons st rest ih =>
    intro s i hi hpass hfail
    cases i with
    | zero =>
      have hf : (run s).exitCode ≠ 0 := by simpa using hfail
      rw [runSteps_cons_fail run st rest s hf]
      refine ⟨rfl, rfl, by simp, by simp [skipRows_length], ?_⟩
      intro k hik hk
      cases k with
      | zero => omega
      | succ k' =>
        have hk' : k' < rest.length := by simpa using hk
        show (skipRows rest (s + 1)).get? k' = _
        rw [skipRows_get? rest (s + 1) k' hk']
        have harith : s + 1 + k' = s + (k' + 1) := by omega
        rw [harith]
        rfl
    | succ i' =>
      have h0 : (run s).exitCode = 0 := by
        have := hpass 0 (Nat.succ_pos i')
        simpa using this
      rw [runSteps_cons_pass run st rest s h0]
      have hpass' : ∀ j, j < i' → (run (s + 1 + j)).exitCode = 0 := by
        intro j hj
        have := hpass (j + 1) (by omega)
        rwa [show s + (j + 1) = s + 1 + j by omega] at this
      have hfail' : (run (s + 1 + i')).exitCode ≠ 0 := by
        rwa [show s + (i' + 1) = s + 1 + i' by omega] at hfail
      have hi' : i' < rest.length := by simpa using hi
      obtain ⟨ha, hb, hc, hd, he⟩ := ih (s + 1) i' hi' hpass' hfail'
      refine ⟨ha, hb, by simp [hc], by simp [hd], ?_⟩
      intro k hik hk
      cases k with
      | zero => omega
      | succ k' =>
        have hik' : i' < k' := by omega
        have hk' : k' < rest.length := by simpa using hk
        show (runSteps run rest (s + 1)).steps.get? k' = _
        rw [he k' hik' hk']
        have harith : s + 1 + k' = s + (k' + 1) := by omega
        rw [harith]
        rfl

/-- C3: if the first `i` steps exit 0 and step `i` (0-based) exits non-zero,
the build finalizes with status `failure`, every remaining step is recorded
as a row with status `failure`, `exit_code = -1`, `duration_ms = 0`, no
stdout, and stderr `"Skipped (previous step failed)"`, and no command after
step `i` is handed to the shell. -/
theorem C3_fail_fast (run : Nat → StepResult) (steps : List StepDef) (i : Nat)
    (hi : i < steps.length)
    (hpass : ∀ j, j < i → (run j).exitCode = 0)
    (hfail : (run i).exitCode ≠ 0) :
    finalStatus (runPipeline run steps) = "failure" ∧
    (runPipeline run steps).steps.length = steps.length ∧
    (∀ k, i < k → ∀ hk : k < steps.length,
      (runPipeline run steps).steps.get? k = some
        { name := (steps.get ⟨k, hk⟩).name,
          sequence := Int.ofNat (k + 1),
          status := "failure",
          exitCode := -1,
          durationMs := 0,
          stdout := none,
          stderr := some "Skipped (previous step failed)" }) ∧
    (runPipeline run steps).executed =
      (steps.take (i + 1)).map StepDef.command := by
  have h := runSteps_fail_fast run steps 0 i hi
    (by intro j hj; simpa using hpass j hj) (by simpa using hfail)
  refine ⟨?_, h.2.2.2.1, ?_, h.2.2.1⟩
  · show finalStatus (runSteps run steps 0) = "failure"
    rw [finalStatus, h.1]
    rfl
  · intro k hik hk
    have hrow := h.2.2.2.2 k hik hk
    show (runSteps run steps 0).steps.get? k = _
    rw [hrow]
    have harith : (0:Nat) + k = k := by omega
    rw [harith, skippedRow, completeStepRow]
    norm_num

/-- Witness for C3 at scenario S4: step `b` (index 1) fails, step `c` is
recorded as skipped, only `true` and `false` are executed. -/
theorem C3_fail_fast_witness :
    finalStatus (runPipeline runS4 stepsS4) = "failure" ∧
    (runPipeline runS4 stepsS4).steps.length = 3 ∧
    (runPipeline runS4 stepsS4).steps.get? 2 = some
      { name := "c", sequence := 3, status := "failure", exitCode := -1,
        durationMs := 0, stdout := none,
        stderr := some "Skipped (previous step failed)" } ∧
    (runPipeline runS4 stepsS4).executed = ["true", "false"] := by
  have h := C3_fail_fast runS4 stepsS4 1 (by decide)
    (by
      intro j hj
      have hj0 : j = 0 := by omega
      subst hj0
      decide)
    (by decide)
  refine ⟨h.1, by rw [h.2.1]; rfl, ?_, by rw [h.2.2.2]; rfl⟩
  have := h.2.2.1 2 (by omega) (by decide)
  rw [this]
  rfl

/-- C1 (refuted; the executor never calls the classifier): on the S4
pipeline the build has a failing step and finalizes as `failure`, yet the
step loop makes no call to `error_service::record_error` — that function
has no call site in the repository — so no Error or Error-Occurrence row is
recorded for the failure. -/
theorem C1_no_classifier_call :
    finalStatus (runPipeline runS4 stepsS4) = "failure" ∧
    ((runPipeline runS4 stepsS4).steps.any fun r => r.exitCode ≠ 0) = true ∧
    (runPipeline runS4 stepsS4).classifierCalls = [] := by decide

/-! ### The scheduler's claim -/

/-- A table without pending rows yields no candidate. -/
theorem selectPending_none (db : List SchedBuild)
    (h : selectPending db = none) :
    ∀ c ∈ db, c.status ≠ "pending" := by
  induction db with
  | nil => intro c hc; exact absurd hc (by simp)
  | cons x rest ih =>
    intro c hc
    simp only [selectPending] at h
    by_cases hx : x.status = "pending"
    · rw [if_pos hx] at h
      cases hr : selectPending rest with
      | none => rw [hr] at h; exact absurd h (by simp)
      | some c0 =>
        rw [hr] at h
        replace h : (if x.id ≤ c0.id then some x else some c0) =
            (none : Option SchedBuild) := h
        by_cases hle : x.id ≤ c0.id
        · rw [if_pos hle] at h; exact absurd h (by simp)
        · rw [if_neg hle] at h; exact absurd h (by simp)
    · rw [if_neg hx] at h
      rcases List.mem_cons.mp hc with rfl | hc'
      · exact fun hcp => hx hcp
      · exact ih h c hc'

/-- The selected row is a pending row of the table with the smallest id
among pending rows. -/
theorem selectPending_spec (db : List SchedBuild) (b : SchedBuild)
    (h : selectPending db = some b) :
    b ∈ db ∧ b.status = "pending" ∧
    ∀ c ∈ db, c.status = "pending" → b.id ≤ c.id := by
  induction db generalizing b with
  | nil => exact absurd h (by simp [selectPending])
  | cons x rest ih =>
    simp only [selectPending] at h
    by_cases hx : x.status = "pending"
    · rw [if_pos hx] at h
      cases hr : selectPending rest with
      | none =>
        rw [hr] at h
        rcases Option.some.inj h with rfl
        refine ⟨List.mem_cons_self x rest, hx, ?_⟩
        intro c hc hcp
        rcases List.mem_cons.mp hc with rfl | hc'
        · exact le_refl _
        · exact absurd hcp (selectPending_none rest hr c hc')
      | some c0 =>
        rw [hr] at h
        replace h : (if x.id ≤ c0.id then some x else some c0) = some b := h
        obtain ⟨hmem, hstat, hmin⟩ := ih c0 hr
        by_cases hle : x.id ≤ c0.id
        · rw [if_pos hle] at h
          rcases Option.some.inj h with rfl
          refine ⟨List.mem_cons_self x rest, hx, ?_⟩
          intro c hc hcp
          rcases List.mem_cons.mp hc with rfl | hc'
          · exact le_refl _
          · exact le_trans hle (hmin c hc' hcp)
        · rw [if_neg hle] at h
          rcases Option.some.inj h with rfl
          refine ⟨List.mem_cons_of_mem x hmem, hstat, ?_⟩
          intro c hc hcp
          rcases List.mem_cons.mp hc with rfl | hc'
          · omega
          · exact hmin c hc' hcp
    · rw [if_neg hx] at h
      obtain ⟨hmem, hstat, hmin⟩ := ih b h
      refine ⟨List.mem_cons_of_mem x hmem, hstat, ?_⟩
      intro c hc hcp
      rcases List.mem_cons.mp hc with rfl | hc'
      · exact absurd hcp hx
      · exact hmin c hc' hcp

/-- C2 counterexample (refuting the one-transaction / at-most-one-claim
part): running the two statements of each of two scheduler instances in the
interleaving select₁, select₂, update₁, update₂ over a table holding the
single pending build 1 ends with **both** instances having claimed build 1,
because the select and the pending→running update are separate statements
with no enclosing transaction. -/
theorem C2_double_claim_counterexample :
    (runSchedule 100
      { db := [{ id := 1, status := "pending", startedAt := none }],
        first := .idle, second := .idle }
      [false, true, false, true]).first =
      .claimed { id := 1, status := "pending", startedAt := none } ∧
    (runSchedule 100
      { db := [{ id := 1, status := "pending", startedAt := none }],
        first := .idle, second := .idle }
      [false, true, false, true]).second =
      .claimed { id := 1, status := "pending", startedAt := none } := by
  decide

/-- C2 amended: the claim operation selects the smallest-id `pending` row,
and then — in a separate `UPDATE` statement, not inside one transaction
with the select — sets its status to `running` with the `started_at` stamp
and returns the row; run without interference the two statements behave as
claimed, but two concurrently interleaved schedulers can both claim the
same build. -/
theorem C2_claim_two_statements (db : List SchedBuild) (now : Nat)
    (b : SchedBuild) (h : selectPending db = some b) :
    b ∈ db ∧ b.status = "pending" ∧
    (∀ c ∈ db, c.status = "pending" → b.id ≤ c.id) ∧
    claimNext db now = (some b, markRunning db b.id now) := by
  obtain ⟨hmem, hstat, hmin⟩ := selectPending_spec db b h
  exact ⟨hmem, hstat, hmin, by rw [claimNext, h]⟩

/-- Witness for C2 amended at a concrete table. -/
theorem C2_claim_two_statements_witness :
    (⟨1, "pending", none⟩ : SchedBuild) ∈
      ([⟨2, "running", some 5⟩, ⟨1, "pending", none⟩, ⟨3, "pending", none⟩]
        : List SchedBuild) ∧
    ("pending" : String) = "pending" ∧
    (∀ c ∈ ([⟨2, "running", some 5⟩, ⟨1, "pending", none⟩,
        ⟨3, "pending", none⟩] : List SchedBuild),
      c.status = "pending" → (1 : Nat) ≤ c.id) ∧
    claimNext [⟨2, "running", some 5⟩, ⟨1, "pending", none⟩,
        ⟨3, "pending", none⟩] 7 =
      (some ⟨1, "pending", none⟩,
        markRunning [⟨2, "running", some 5⟩, ⟨1, "pending", none⟩,
          ⟨3, "pending", none⟩] 1 7) :=
  C2_claim_two_statements
    [⟨2, "running", some 5⟩, ⟨1, "pending", none⟩, ⟨3, "pending", none⟩]
    7 ⟨1, "pending", none⟩ (by decide)

/-! ### Webhook intake and dedup -/

/-- C4: for a push webhook with a registered project and non-empty SHA and
branch — a duplicate within the window yields 200 and no insert, otherwise
exactly one `pending` build is inserted and the reply is 201; hence a
replay within the window (the new build's `create_date = now` satisfies
`now > now2 − window`) inserts nothing, and a replay outside the window
(no same-fingerprint build newer than `now2 − window`) inserts a second
build. -/
theorem C4_webhook_dedup (projects : List WProject) (builds : List WBuild)
    (now window : Int) (repo sha branch : String)
    (hsha : sha ≠ "") (hbranch : branch ≠ "")
    (hproj : ∃ p, find_by_repo projects repo = some p) :
    (is_duplicate builds (dedupFingerprint sha branch) now window = true →
      handle_push projects builds now window repo sha branch = (200, builds)) ∧
    (is_duplicate builds (dedupFingerprint sha branch) now window = false →
      handle_push projects builds now window repo sha branch =
        (201, builds ++ [⟨dedupFingerprint sha branch, "pending", now⟩])) ∧
    (∀ now2 : Int, now2 - window < now →
      handle_push projects
        (builds ++ [⟨dedupFingerprint sha branch, "pending", now⟩])
        now2 window repo sha branch =
        (200, builds ++ [⟨dedupFingerprint sha branch, "pending", now⟩])) ∧
    (∀ now2 : Int, now ≤ now2 - window →
      (∀ b ∈ builds, b.fingerprint = dedupFingerprint sha branch →
        b.createDate ≤ now2 - window) →
      handle_push projects
        (builds ++ [⟨dedupFingerprint sha branch, "pending", now⟩])
        now2 window repo sha branch =
        (201, (builds ++ [⟨dedupFingerprint sha branch, "pending", now⟩]) ++
          [⟨dedupFingerprint sha branch, "pending", now2⟩])) := by
  obtain ⟨p, hp⟩ := hproj
  have hcond : ¬(sha = "" ∨ branch = "") := by
    rintro (h | h)
    · exact hsha h
    · exact hbranch h
  have hpush : ∀ (bs : List WBuild) (t : Int),
      handle_push projects bs t window repo sha branch =
        if is_duplicate bs (dedupFingerprint sha branch) t window then
          (200, bs)
        else (201, bs ++ [⟨dedupFingerprint sha branch, "pending", t⟩]) := by
    intro bs t
    simp only [handle_push]
    rw [if_neg hcond, hp]
  refine ⟨?_, ?_, ?_, ?_⟩
  · intro hdup
    rw [hpush, if_pos hdup]
  · intro hdup
    rw [hpush, if_neg (by simp [hdup])]
  · intro now2 hlt
    have hdup : is_duplicate
        (builds ++ [⟨dedupFingerprint sha branch, "pending", now⟩])
        (dedupFingerprint sha branch) now2 window = true := by
      simp only [is_duplicate, List.filter_append, decide_eq_true_eq]
      have hone : (List.filter
          (fun (b : WBuild) => b.fingerprint = dedupFingerprint sha branch &&
            decide (b.createDate > now2 - window))
          [⟨dedupFingerprint sha branch, "pending", now⟩]).length = 1 := by
        simp [hlt]
      simp [List.length_append, hone]
    rw [hpush, if_pos hdup]
  · intro now2 hge hold
    have hdup : is_duplicate
        (builds ++ [⟨dedupFingerprint sha branch, "pending", now⟩])
        (dedupFingerprint sha branch) now2 window = false := by
      simp only [is_duplicate]
      rw [decide_eq_false_iff_not]
      intro hpos
      rw [List.filter_append] at hpos
      have hnil1 : (List.filter
          (fun (b : WBuild) => b.fingerprint = dedupFingerprint sha branch &&
            decide (b.createDate > now2 - window)) builds) = [] := by
        rw [List.filter_eq_nil_iff]
        intro b hb
        by_cases hfp : b.fingerprint = dedupFingerprint sha branch
        · have := hold b hb hfp
          simp [hfp]
          omega
        · simp [hfp]
      have hnil2 : (List.filter
          (fun (b : WBuild) => b.fingerprint = dedupFingerprint sha branch &&
            decide (b.createDate > now2 - window))
          [⟨dedupFingerprint sha branch, "pending", now⟩]) = [] := by
        rw [List.filter_eq_nil_iff]
        intro b hb
        rcases List.mem_singleton.mp hb with rfl
        simp
        omega
      rw [hnil1, hnil2] at hpos
      simp at hpos
    rw [hpush, if_neg (by simp [hdup])]

/-- Witness for C4 on the S2/S3 scenario: first push inserts the build and
replies 201; a replay at `now = 120` (window 60) replies 200 without
inserting; a replay at `now = 200` inserts a second build and replies
201. -/
theorem C4_webhook_dedup_witness :
    handle_push [⟨"acme/app", true⟩] [] 100 60 "acme/app" "a" "main" =
      (201, [⟨"a-main-push", "pending", 100⟩]) ∧
    handle_push [⟨"acme/app", true⟩] [⟨"a-main-push", "pending", 100⟩]
        120 60 "acme/app" "a" "main" =
      (200, [⟨"a-main-push", "pending", 100⟩]) ∧
    handle_push [⟨"acme/app", true⟩] [⟨"a-main-push", "pending", 100⟩]
        200 60 "acme/app" "a" "main" =
      (201, [⟨"a-main-push", "pending", 100⟩,
             ⟨"a-main-push", "pending", 200⟩]) := by
  have h := C4_webhook_dedup [⟨"acme/app", true⟩] [] 100 60
    "acme/app" "a" "main" (by decide) (by decide)
    ⟨⟨"acme/app", true⟩, by decide⟩
  refine ⟨?_, ?_, ?_⟩
  · have h2 := h.2.1 (by decide)
    simpa using h2
  · have h3 := h.2.2.1 120 (by decide)
    simpa using h3
  · have h4 := h.2.2.2 200 (by decide) (by intro b hb; simp at hb)
    simpa using h4

/-! ### The error catalog upsert -/

/-- C8: under the catalog invariant, `record_error` preserves it — at most
one Error row per `(tenant, fingerprint)` whose `occurrence_count` equals
the number of occurrence rows referencing it — and behaves as claimed: an
existing row has its count incremented by exactly one with exactly one new
occurrence row appended, an absent one is created with
`occurrence_count = 1` together with exactly one occurrence row. -/
theorem C8_record_error_invariant (db : ErrorDb) (tenant : Nat) (fp : String)
    (buildId : Nat) (stepName : String) (raw : String) (now : Int)
    (hinv : ErrCatalogInv db) :
    ErrCatalogInv (record_error db tenant fp buildId stepName raw now).1 ∧
    ((∃ e ∈ db.errors, e.tenantId = tenant ∧ e.fingerprint = fp) →
      ∃ e ∈ db.errors, e.tenantId = tenant ∧ e.fingerprint = fp ∧
        (record_error db tenant fp buildId stepName raw now).1.errors =
          (db.errors.map fun x =>
            if x.id = e.id then
              { x with occurrenceCount := e.occurrenceCount + 1,
                       lastSeenAt := now }
            else x) ∧
        (record_error db tenant fp buildId stepName raw now).1.occs =
          db.occs ++ [⟨tenant, e.id, buildId, stepName, some raw⟩]) ∧
    ((¬∃ e ∈ db.errors, e.tenantId = tenant ∧ e.fingerprint = fp) →
      (record_error db tenant fp buildId stepName raw now).1.errors =
        db.errors ++ [⟨db.nextErrorId, tenant, fp, 1, now⟩] ∧
      (record_error db tenant fp buildId stepName raw now).1.occs =
        db.occs ++ [⟨tenant, db.nextErrorId, buildId, stepName, some raw⟩]) := by
  obtain ⟨hUniq, hIdU, hIdLt, hOccLt, hCnt⟩ := hinv
  cases hfind : db.errors.find?
      (fun e => e.fingerprint = fp && e.tenantId = tenant) with
  | some err =>
    have hre : record_error db tenant fp buildId stepName raw now =
        ({ errors := db.errors.map fun e =>
             if e.id = err.id then
               { e with occurrenceCount := err.occurrenceCount + 1,
                        lastSeenAt := now }
             else e,
           occs := db.occs ++ [⟨tenant, err.id, buildId, stepName, some raw⟩],
           nextErrorId := db.nextErrorId }, err.id) := by
      simp only [record_error]
      rw [hfind]
    have hmem : err ∈ db.errors := List.mem_of_find?_eq_some hfind
    have hpred := List.find?_some hfind
    have hfpT : err.fingerprint = fp := by
      rcases (Bool.and_eq_true _ _).mp hpred with ⟨h1, _⟩
      simpa using h1
    have htenT : err.tenantId = tenant := by
      rcases (Bool.and_eq_true _ _).mp hpred with ⟨_, h2⟩
      simpa using h2
    have hfid : ∀ e : ErrorRow,
        ((if e.id = err.id then
          { e with occurrenceCount := err.occurrenceCount + 1,
                   lastSeenAt := now } else e) : ErrorRow).id = e.id := by
      intro e
      by_cases h : e.id = err.id <;> simp [h]
    have hften : ∀ e : ErrorRow,
        ((if e.id = err.id then
          { e with occurrenceCount := err.occurrenceCount + 1,
                   lastSeenAt := now } else e) : ErrorRow).tenantId =
          e.tenantId := by
      intro e
      by_cases h : e.id = err.id <;> simp [h]
    have hffp : ∀ e : ErrorRow,
        ((if e.id = err.id then
          { e with occurrenceCount := err.occurrenceCount + 1,
                   lastSeenAt := now } else e) : ErrorRow).fingerprint =
          e.fingerprint := by
      intro e
      by_cases h : e.id = err.id <;> simp [h]
    refine ⟨?_, fun _ => ⟨err, hmem, htenT, hfpT, by rw [hre], by rw [hre]⟩,
      fun hnex => absurd ⟨err, hmem, htenT, hfpT⟩ hnex⟩
    rw [hre]
    refine ⟨?_, ?_, ?_, ?_, ?_⟩
    · intro e1 h1 e2 h2 hten hfp'
      obtain ⟨a, ha, rfl⟩ := List.mem_map.mp h1
      obtain ⟨b, hb, rfl⟩ := List.mem_map.mp h2
      rw [hften a, hften b] at hten
      rw [hffp a, hffp b] at hfp'
      rw [hUniq a ha b hb hten hfp']
    · intro e1 h1 e2 h2 hid
      obtain ⟨a, ha, rfl⟩ := List.mem_map.mp h1
      obtain ⟨b, hb, rfl⟩ := List.mem_map.mp h2
      rw [hfid a, hfid b] at hid
      rw [hIdU a ha b hb hid]
    · intro e he
      obtain ⟨a, ha, rfl⟩ := List.mem_map.mp he
      rw [hfid a]
      exact hIdLt a ha
    · intro o ho
      rcases List.mem_append.mp ho with ho | ho
      · exact hOccLt o ho
      · rcases List.mem_singleton.mp ho with rfl
        exact hIdLt err hmem
    · intro e he
      obtain ⟨a, ha, rfl⟩ := List.mem_map.mp he
      rw [List.filter_congr (fun o _ => by rw [hfid a] : ∀ o ∈ db.occs ++
        [⟨tenant, err.id, buildId, stepName, some raw⟩],
        (decide (o.errorId = ((if a.id = err.id then
          { a with occurrenceCount := err.occurrenceCount + 1,
                   lastSeenAt := now } else a) : ErrorRow).id)) =
          decide (o.errorId = a.id))]
      rw [List.filter_append, List.length_append]
      by_cases hid : a.id = err.id
      · have haerr : a = err := hIdU a ha err hmem hid
        subst haerr
        rw [if_pos rfl]
        have hone : (List.filter (fun o => decide (o.errorId = a.id))
            [(⟨tenant, a.id, buildId, stepName, some raw⟩ : OccRow)]).length
            = 1 := by
          simp
        rw [hone]
        have := hCnt a ha
        simp only []
        push_cast
        omega
      · rw [if_neg hid]
        have hzero : (List.filter (fun o => decide (o.errorId = a.id))
            [(⟨tenant, err.id, buildId, stepName, some raw⟩ : OccRow)]).length
            = 0 := by
          simp
          omega
        rw [hzero]
        simpa using hCnt a ha
  | none =>
    have hre : record_error db tenant fp buildId stepName raw now =
        ({ errors := db.errors ++ [⟨db.nextErrorId, tenant, fp, 1, now⟩],
           occs := db.occs ++
             [⟨tenant, db.nextErrorId, buildId, stepName, some raw⟩],
           nextErrorId := db.nextErrorId + 1 }, db.nextErrorId) := by
      simp only [record_error]
      rw [hfind]
    have hnone : ∀ e ∈ db.errors,
        ¬(e.tenantId = tenant ∧ e.fingerprint = fp) := by
      intro e he hcontra
      have := List.find?_eq_none.mp hfind e he
      simp [hcontra.1, hcontra.2] at this
    refine ⟨?_, fun hex => ?_, fun _ => ⟨by rw [hre], by rw [hre]⟩⟩
    · rw [hre]
      refine ⟨?_, ?_, ?_, ?_, ?_⟩
      · intro e1 h1 e2 h2 hten hfp'
        rcases List.mem_append.mp h1 with h1 | h1 <;>
          rcases List.mem_append.mp h2 with h2 | h2
        · exact hUniq e1 h1 e2 h2 hten hfp'
        · rcases List.mem_singleton.mp h2 with rfl
          exact absurd ⟨hten, hfp'⟩ (hnone e1 h1)
        · rcases List.mem_singleton.mp h1 with rfl
          exact absurd ⟨hten.symm, hfp'.symm⟩ (hnone e2 h2)
        · rw [List.mem_singleton.mp h1, List.mem_singleton.mp h2]
      · intro e1 h1 e2 h2 hid
        rcases List.mem_append.mp h1 with h1 | h1 <;>
          rcases List.mem_append.mp h2 with h2 | h2
        · exact hIdU e1 h1 e2 h2 hid
        · rcases List.mem_singleton.mp h2 with rfl
          exact absurd hid (by have := hIdLt e1 h1; simp; omega)
        · rcases List.mem_singleton.mp h1 with rfl
          exact absurd hid (by have := hIdLt e2 h2; simp; omega)
        · rw [List.mem_singleton.mp h1, List.mem_singleton.mp h2]
      · intro e he
        rcases List.mem_append.mp he with he | he
        · have := hIdLt e he
          simp
          omega
        · rcases List.mem_singleton.mp he with rfl
          simp
      · intro o ho
        rcases List.mem_append.mp ho with ho | ho
        · have := hOccLt o ho
          simp
          omega
        · rcases List.mem_singleton.mp ho with rfl
          simp
      · intro e he
        rw [List.filter_append, List.length_append]
        rcases List.mem_append.mp he with he | he
        · have hzero : (List.filter (fun o => decide (o.errorId = e.id))
              [(⟨tenant, db.nextErrorId, buildId, stepName, some raw⟩ :
                OccRow)]).length = 0 := by
            have := hIdLt e he
            simp
            omega
          rw [hzero]
          simpa using hCnt e he
        · rcases List.mem_singleton.mp he with rfl
          have hzero : (List.filter (fun o => decide (o.errorId =
              (⟨db.nextErrorId, tenant, fp, 1, now⟩ : ErrorRow).id))
              db.occs).length = 0 := by
            simp only [List.length_eq_zero, List.filter_eq_nil_iff]
            intro o ho
            have := hOccLt o ho
            simp
            omega
          rw [hzero]
          simp
    · exact absurd hex (by
        rintro ⟨e, he, hten, hfp'⟩
        exact hnone e he ⟨hten, hfp'⟩)

/-- Witness for C8 at the empty catalog. -/
theorem C8_record_error_invariant_witness :
    ErrCatalogInv (record_error ⟨[], [], 0⟩ 1 "fp" 7 "build" "boom" 5).1 := by
  have h := C8_record_error_invariant ⟨[], [], 0⟩ 1 "fp" 7 "build" "boom" 5
    (by
      refine ⟨?_, ?_, ?_, ?_, ?_⟩ <;> intro x hx <;> simp at hx)
  exact h.1

/-! ### The success-rate KPI -/

/-- C10: the KPI returns `total` = the number of builds in the window with
terminal status `success` or `failure`, `success` = the number of those
with status `success`, and `rate = success / max(total, 1)` — in
particular `rate = 0` when there are no such builds, since then
`success = 0`. -/
theorem C10_success_rate (builds : List KpiBuild) (now days : Int) :
    (query_success_rate builds now days).total =
      (builds.filter fun b =>
        b.createDate ≥ now - days * 86400 &&
          (b.status = "success" || b.status = "failure")).length ∧
    (query_success_rate builds now days).success =
      ((builds.filter fun b =>
        b.createDate ≥ now - days * 86400 &&
          (b.status = "success" || b.status = "failure")).filter fun b =>
            b.status = "success").length ∧
    (query_success_rate builds now days).rate =
      ((query_success_rate builds now days).success : ℚ) /
        (max (query_success_rate builds now days).total 1 : ℚ) := by
  refine ⟨rfl, rfl, ?_⟩
  show (if (builds.filter _).length = 0 then (0:ℚ) else _) = _
  by_cases h0 : (builds.filter fun b =>
      b.createDate ≥ now - days * 86400 &&
        (b.status = "success" || b.status = "failure")).length = 0
  · have hsucc : (query_success_rate builds now days).success = 0 := by
      show ((builds.filter _).filter _).length = 0
      have hle := List.length_filter_le
        (fun (b : KpiBuild) => b.status = "success")
        (builds.filter fun b =>
          b.createDate ≥ now - days * 86400 &&
            (b.status = "success" || b.status = "failure"))
      omega
    show (if _ then (0:ℚ) else _) = _
    rw [if_pos h0, hsucc]
    have htot : (query_success_rate builds now days).total = 0 := h0
    rw [htot]
    norm_num
  · show (if _ then (0:ℚ) else _) = _
    rw [if_neg h0]
    have htot : (query_success_rate builds now days).total =
        (builds.filter fun b =>
          b.createDate ≥ now - days * 86400 &&
            (b.status = "success" || b.status = "failure")).length := rfl
    have hmax : max ((query_success_rate builds now days).total : ℚ) 1 =
        ((query_success_rate builds now days).total : ℚ) := by
      refine max_eq_left ?_
      rw [htot]
      exact_mod_cast Nat.one_le_iff_ne_zero.mpr h0
    rw [hmax]
    rfl

end CI
